import Mathlib

/-!
Verification development for the Guayaquil emergency-routing core
(`src/core.py`: `DescargadorRed` and `SistemaRutasEmergenciaGuayaquil`).

Shallow embedding conventions:
* Python floats are embedded as exact rationals `ℚ`; the float value
  `float('inf')` used by the distance matrix is embedded as `⊤` in `WithTop ℚ`.
* The transcendental geometry (`_haversine_km`, and the sin/cos based planar
  projection inside `_nearest_edge_projection`) is kept abstract as function
  parameters (`hav`, `proy`): every claim treated here is independent of the
  numeric values these functions return, and the theorems quantify over them.
* Python dicts are embedded as insertion-ordered association lists; dict
  assignment is `dictInsert` (updates in place if the key exists, else appends),
  matching CPython's insertion-order semantics.
* The `while actual != j` successor walk of `obtener_ruta` is embedded with a
  fuel parameter (fuel exhaustion returns `none`); the termination theorem for
  claim C10 shows fuel `n + 1` always suffices for matrices produced by
  `preparar_floyd_warshall`, so the embedding agrees with the Python loop
  whenever the latter terminates.
-/

/-- A latitude/longitude pair, as stored in `red_vial["nodos"]`. -/

abbrev Coord : Type := ℚ × ℚ

/-- The graph structure returned by `DescargadorRed.procesar_red_osm` and
mutated by the integration code: `{"nodos": ..., "aristas": ...}`.
`nodos` is the insertion-ordered dict from node id to coordinates,
`aristas` the list of directed weighted edges `(u, v, w_km)`. -/

structure Red where
  nodos : List (String × Coord)
  aristas : List (String × String × ℚ)
deriving DecidableEq

/-- Character-list prefix test (embeds Python's `str.startswith`). -/

def esPrefijo : List Char → List Char → Bool
  | [], _ => true
  | _ :: _, [] => false
  | a :: as, b :: bs => a = b && esPrefijo as bs

/-- `empiezaCon s pre` embeds `s.startswith(pre)`. -/

def empiezaCon (s pre : String) : Bool := esPrefijo pre.data s.data

/-- Python dict assignment `d[k] = v` on an insertion-ordered assoc list:
overwrite in place if the key exists, otherwise append. -/

def dictInsert (l : List (String × Coord)) (k : String) (v : Coord) :
    List (String × Coord) :=
  if l.any (fun p => p.1 = k) then
    l.map (fun p => if p.1 = k then (k, v) else p)
  else l ++ [(k, v)]

/-- Python dict lookup `d[k]` (first, i.e. unique, occurrence). -/

def buscaNodo : List (String × Coord) → String → Option Coord
  | [], _ => none
  | p :: resto, k => if p.1 = k then some p.2 else buscaNodo resto k

/-- Index of a key in the node list; embeds the dense index dict
`nodo_a_indice = {nodo: i for i, nodo in enumerate(nodos)}` (dict keys are
unique, so first occurrence is the occurrence). -/

def idxNat : List (String × Coord) → String → Option ℕ
  | [], _ => none
  | p :: resto, s => if p.1 = s then some 0 else (idxNat resto s).map (· + 1)

theorem idxNat_lt {l : List (String × Coord)} {s : String} {k : ℕ}
    (h : idxNat l s = some k) : k < l.length := by
  induction l generalizing k with
  | nil => simp [idxNat] at h
  | cons p resto ih =>
    by_cases hp : p.1 = s
    · simp only [idxNat, hp, if_pos, Option.some.injEq] at h
      subst h
      simp only [List.length_cons]
      omega
    · rw [idxNat, if_neg hp] at h
      cases hm : idxNat resto s with
      | none => rw [hm] at h; simp at h
      | some m =>
        rw [hm] at h
        simp only [Option.map_some', Option.some.injEq] at h
        subst h
        have := ih hm
        simp only [List.length_cons]
        omega

/-- `nodo_a_indice` as a map into `Fin l.length`. -/

def indiceDe (l : List (String × Coord)) (s : String) : Option (Fin l.length) :=
  match h : idxNat l s with
  | none => none
  | some k => some ⟨k, idxNat_lt h⟩

/-- State of the Floyd–Warshall matrices (`matriz_distancias`,
`matriz_sucesores`), indexed by the dense node index. -/

structure FW (n : ℕ) where
  dist : Fin n → Fin n → WithTop ℚ
  succ : Fin n → Fin n → Option (Fin n)

/-- Pointwise update of one matrix cell (embeds `m[i][j] = a`). -/

def upd2 {n : ℕ} {α : Type} (f : Fin n → Fin n → α) (i j : Fin n) (a : α) :
    Fin n → Fin n → α :=
  fun x y => if x = i ∧ y = j then a else f x y

/-- Matrix initialisation: distance `INF` with `0.0` on the diagonal,
successor `None` with `i` on the diagonal (lines 345-350). -/

def inicial (n : ℕ) : FW n where
  dist := fun i j => if i = j then 0 else ⊤
  succ := fun i j => if i = j then some i else none

/-- Seeding one edge (lines 352-358): keep the minimum-weight parallel edge. -/

def siembraArista {n : ℕ} (s : FW n) (e : Fin n × Fin n × ℚ) : FW n :=
  if (e.2.2 : WithTop ℚ) < s.dist e.1 e.2.1 then
    { dist := upd2 s.dist e.1 e.2.1 (e.2.2 : WithTop ℚ)
      succ := upd2 s.succ e.1 e.2.1 (some e.2.1) }
  else s

/-- Seeding all edges, in list order. -/

def siembra {n : ℕ} (s : FW n) (es : List (Fin n × Fin n × ℚ)) : FW n :=
  es.foldl siembraArista s

/-- Innermost body of the triple loop (lines 373-377), for one `j`.
`dik` is the row value `dist[i][k]` cached before the `j` loop;
`dist[k][j]` and `succ[i][k]` are read live, as in the source. -/

def relajaCelda {n : ℕ} (k i : Fin n) (dik : WithTop ℚ) (s : FW n) (j : Fin n) :
    FW n :=
  if dik + s.dist k j < s.dist i j then
    { dist := upd2 s.dist i j (dik + s.dist k j)
      succ := upd2 s.succ i j (s.succ i k) }
  else s

/-- One row of the relaxation (lines 366-377): cache `dik = dist[i][k]`,
skip the row when it is infinite, else relax every `j`. -/

def relajaFila {n : ℕ} (k : Fin n) (s : FW n) (i : Fin n) : FW n :=
  if s.dist i k = ⊤ then s
  else (List.finRange n).foldl (relajaCelda k i (s.dist i k)) s

/-- One intermediate-node iteration `k` of Floyd–Warshall. -/

def relajaK {n : ℕ} (s : FW n) (k : Fin n) : FW n :=
  (List.finRange n).foldl (relajaFila k) s

/-- The full triple-nested relaxation (lines 362-377). -/

def floydWarshall {n : ℕ} (s : FW n) : FW n :=
  (List.finRange n).foldl relajaK s

/-- Edges translated to dense indices; edges whose endpoints are not in the
index mapping are dropped, matching the membership guard on line 353. -/

def aristasIdx (red : Red) : List (Fin red.nodos.length × Fin red.nodos.length × ℚ) :=
  red.aristas.filterMap (fun e =>
    match indiceDe red.nodos e.1, indiceDe red.nodos e.2.1 with
    | some i, some j => some (i, j, e.2.2)
    | _, _ => none)

/-- `preparar_floyd_warshall` on a loaded network (lines 332-380): build the
index mapping, initialise the matrices, seed the edges, run the relaxation. -/

def preparar (red : Red) : FW red.nodos.length :=
  floydWarshall (siembra (inicial red.nodos.length) (aristasIdx red))

/-- The successor-pointer walk of `obtener_ruta` (lines 407-413), with fuel.
Python's `while actual != j` loop appends the successor until reaching `j`,
returning `None` if a `None` successor is encountered; fuel exhaustion
models nontermination of the loop. -/

def caminaSuc {n : ℕ} (suc : Fin n → Fin n → Option (Fin n)) (j : Fin n) :
    ℕ → Fin n → Option (List (Fin n))
  | 0, _ => none
  | fuel + 1, actual =>
    if actual = j then some [actual]
    else
      match suc actual j with
      | none => none
      | some siguiente => (caminaSuc suc j fuel siguiente).map (actual :: ·)

/-- The route record returned by `obtener_ruta` (lines 422-427). -/

structure InfoRuta where
  ruta_nodos : List String
  coordenadas : List (ℚ × ℚ)
  distancia_km : WithTop ℚ
  tiempo_min : WithTop ℚ
deriving DecidableEq

/-- The pieces of `SistemaRutasEmergenciaGuayaquil` state that the route query
reads: the loaded network and the `fw_preparado` flag. -/

structure Sistema where
  red_vial : Red
  fw_preparado : Bool

/-- `obtener_ruta` (lines 397-427).  The unreachable `(0, 0)` default in the
coordinate lookup stands for the `KeyError` Python would raise on a node id
missing from the dict, which cannot happen for ids taken from the index
mapping.  Fuel `n + 1` suffices by the termination theorem for C10. -/

def obtener_ruta (s : Sistema) (origen destino : String) : Option InfoRuta :=
  if s.fw_preparado = false then none
  else
    match indiceDe s.red_vial.nodos origen, indiceDe s.red_vial.nodos destino with
    | some i, some j =>
      match (preparar s.red_vial).succ i j with
      | none => none
      | some _ =>
        match caminaSuc (preparar s.red_vial).succ j
            (s.red_vial.nodos.length + 1) i with
        | none => none
        | some ruta =>
          some { ruta_nodos := ruta.map (fun idx => (s.red_vial.nodos.get idx).1)
                 coordenadas := (ruta.map (fun idx => (s.red_vial.nodos.get idx).1)).map
                   (fun nid =>
                     match buscaNodo s.red_vial.nodos nid with
                     | some c => (c.2, c.1)
                     | none => (0, 0))
                 distancia_km := (preparar s.red_vial).dist i j
                 tiempo_min := WithTop.map (fun q => q / 25 * 60)
                   ((preparar s.red_vial).dist i j) }
    | _, _ => none

/-- The scan step of `_encontrar_nodo_mas_cercano` (lines 388-394): skip ids
with prefix `servicio_` or `ref_`, else keep the strictly smaller distance. -/

def pasoCercano (hav : Coord → Coord → ℚ) (coordenadas : Coord)
    (mejor : WithTop ℚ × Option String) (par : String × Coord) :
    WithTop ℚ × Option String :=
  if empiezaCon par.1 "servicio_" || empiezaCon par.1 "ref_" then mejor
  else if ((hav coordenadas par.2 : ℚ) : WithTop ℚ) < mejor.1 then
    (((hav coordenadas par.2 : ℚ) : WithTop ℚ), some par.1)
  else mejor

/-- A node id is scanned (not skipped) by the nearest-node loop. -/

def escaneado (nid : String) : Bool :=
  !(empiezaCon nid "servicio_" || empiezaCon nid "ref_")

/-- `_encontrar_nodo_mas_cercano` (lines 383-395): linear scan over the node
dict, skipping ids with prefix `servicio_` or `ref_`, tracking the strict
minimum of the haversine distance (initially `float('inf')`, initially no
node).  `hav` abstracts `_haversine_km`. -/

def encontrar_nodo_mas_cercano (hav : Coord → Coord → ℚ) (red : Option Red)
    (coordenadas : Coord) : Option String :=
  match red with
  | none => none
  | some r =>
    if r.nodos.isEmpty then none
    else (r.nodos.foldl (pasoCercano hav coordenadas) ((⊤ : WithTop ℚ), none)).2

/-- Modelled from the spec (`nearestRoadNode`, §4.6): the claimed variant of
the scan step that also excludes `snap_`-prefixed node ids. -/

def pasoCercanoSpec (hav : Coord → Coord → ℚ) (coordenadas : Coord)
    (mejor : WithTop ℚ × Option String) (par : String × Coord) :
    WithTop ℚ × Option String :=
  if empiezaCon par.1 "servicio_" || empiezaCon par.1 "ref_"
      || empiezaCon par.1 "snap_" then mejor
  else if ((hav coordenadas par.2 : ℚ) : WithTop ℚ) < mejor.1 then
    (((hav coordenadas par.2 : ℚ) : WithTop ℚ), some par.1)
  else mejor

/-- Modelled from the spec (`nearestRoadNode`, §4.6): the scan as the spec
claims it, excluding service-, reference- and snap-prefixed nodes.  Used only
to compare the specified behaviour with the code's behaviour. -/

def encontrar_nodo_spec (hav : Coord → Coord → ℚ) (red : Option Red)
    (coordenadas : Coord) : Option String :=
  match red with
  | none => none
  | some r =>
    if r.nodos.isEmpty then none
    else (r.nodos.foldl (pasoCercanoSpec hav coordenadas) ((⊤ : WithTop ℚ), none)).2

/-- One element of the Overpass response: a way with its geometry and the
`oneway` / `junction` tag values (already defaulted to `"no"` / `""` as by
`tags.get(...)`), or any other element, which `procesar_red_osm` skips. -/

inductive Elemento
  | way (geometry : List Coord) (oneway junction : String)
  | otro

/-- Python's `str.lower()` restricted to what tags need. -/

def minuscula (s : String) : String := String.mk (s.data.map Char.toLower)

/-- Rounding a coordinate to six decimal places, embedding the dedup key
`f"{lat:.6f},{lon:.6f}"` (line 133) as a pair of scaled integers. -/

def redondea6 (q : ℚ) : ℤ := ⌊q * 1000000 + 1 / 2⌋

/-- The dedup key of a coordinate. -/

def clave (c : Coord) : ℤ × ℤ := (redondea6 c.1, redondea6 c.2)

/-- The keep test of the downsampling loop (line 130): a point is skipped iff
`downsample_step > 1` and its index is not a multiple of the stride and it is
not the final point of the way. -/

def conserva (s len idx : ℕ) : Bool :=
  !(decide (1 < s) && decide (idx % s ≠ 0) && decide (idx ≠ len - 1))

/-- The points of a way surviving downsampling, tracking the running index
(embeds `for idx, punto in enumerate(geometry)`). -/

def conservadosDesde (s len : ℕ) : ℕ → List Coord → List Coord
  | _, [] => []
  | idx, c :: resto =>
    if conserva s len idx then c :: conservadosDesde s len (idx + 1) resto
    else conservadosDesde s len (idx + 1) resto

/-- Kept points of one way. -/

def puntosConservados (s : ℕ) (geom : List Coord) : List Coord :=
  conservadosDesde s geom.length 0 geom

/-- Mutable state of `procesar_red_osm` while ways are processed. -/

structure EstadoConstruccion where
  nodos : List (String × Coord)
  aristas : List (String × String × ℚ)
  contador : ℕ
  coordAId : List ((ℤ × ℤ) × String)

/-- Lookup in the `coord_to_id` dict. -/

def buscaClave : List ((ℤ × ℤ) × String) → (ℤ × ℤ) → Option String
  | [], _ => none
  | p :: resto, k => if p.1 = k then some p.2 else buscaClave resto k

/-- Processing one kept point (lines 132-139): deduplicate by rounded
coordinate key, assigning a fresh sequential node id on first occurrence,
and extend the way's node list. -/

def agregaPunto (st : EstadoConstruccion × List String) (c : Coord) :
    EstadoConstruccion × List String :=
  let k := clave c
  match buscaClave st.1.coordAId k with
  | some nid => (st.1, st.2 ++ [nid])
  | none =>
    let nid := "node_" ++ toString st.1.contador
    ({ st.1 with
        nodos := dictInsert st.1.nodos nid c
        coordAId := st.1.coordAId ++ [(k, nid)]
        contador := st.1.contador + 1 },
     st.2 ++ [nid])

/-- Per-way directionality (lines 119-125). -/

inductive Direccion | ambos | adelante | atras

/-- Deriving the direction mode from the `oneway` and `junction` tags. -/

def modoDireccion (oneway junction : String) : Direccion :=
  let ow := minuscula oneway
  let jn := minuscula junction
  if ow = "yes" ∨ ow = "true" ∨ ow = "1" then .adelante
  else if ow = "-1" then .atras
  else if jn = "roundabout" then .adelante
  else .ambos

/-- Directed edges for consecutive node pairs of one way (lines 142-152):
skip self-pairs, floor the haversine distance at 0.01 km, and emit one or two
directed edges according to the direction mode.  (`(0,0)` stands for the
`KeyError` on a node id absent from `nodos`, which cannot occur since the way's
nodes were just inserted.) -/

def aristasDeVia (hav : Coord → Coord → ℚ) (dm : Direccion)
    (nodos : List (String × Coord)) : List String → List (String × String × ℚ)
  | [] => []
  | [_] => []
  | n1 :: n2 :: resto =>
    (if n1 = n2 then []
     else
       let c1 := (buscaNodo nodos n1).getD (0, 0)
       let c2 := (buscaNodo nodos n2).getD (0, 0)
       let d := max (hav c1 c2) (1 / 100)
       match dm with
       | .ambos => [(n1, n2, d), (n2, n1, d)]
       | .adelante => [(n1, n2, d)]
       | .atras => [(n2, n1, d)]) ++ aristasDeVia hav dm nodos (n2 :: resto)

/-- Processing one element of the response (lines 110-152). -/

def procesaVia (hav : Coord → Coord → ℚ) (paso : ℕ) (st : EstadoConstruccion)
    (el : Elemento) : EstadoConstruccion :=
  match el with
  | .otro => st
  | .way geom oneway junction =>
    let dm := modoDireccion oneway junction
    let resultado := (puntosConservados paso geom).foldl agregaPunto (st, [])
    { resultado.1 with
        aristas := resultado.1.aristas ++
          aristasDeVia hav dm resultado.1.nodos resultado.2 }

/-- Total geometry point count over all ways (lines 94-97). -/

def totalPuntos (data : List Elemento) : ℕ :=
  data.foldl (fun acc el =>
    match el with | .way g _ _ => acc + g.length | .otro => acc) 0

/-- The downsample stride (lines 99-102):
`objetivo = max(500, 5000 - 150)`; if the total point count exceeds it,
`max(1, ceil(total * 1.1 / objetivo))`, else 1. -/

def pasoSubmuestreo (data : List Elemento) : ℕ :=
  let objetivo : ℕ := max 500 (5000 - 150)
  let tp := totalPuntos data
  if tp > objetivo then
    max 1 (⌈(tp : ℚ) * (11 / 10) / (objetivo : ℚ)⌉.toNat)
  else 1

/-- `DescargadorRed.procesar_red_osm` (lines 88-155). -/

def procesar_red_osm (hav : Coord → Coord → ℚ) (data : List Elemento) : Red :=
  let paso := pasoSubmuestreo data
  let final := data.foldl (procesaVia hav paso) ⟨[], [], 0, []⟩
  { nodos := final.nodos, aristas := final.aristas }

/-- `_nearest_edge_projection` (lines 203-233): linear scan over the edges,
tracking the strict minimum planar distance of the clamped projection of the
query point onto each segment.  `proy p a b` abstracts the equirectangular
projection geometry, returning the projected coordinate and the planar
distance; no claim depends on its numeric values.  Returns `none` iff the
network is absent or has no edges. -/

def nearest_edge_projection (proy : Coord → Coord → Coord → Coord × ℚ)
    (red : Option Red) (p : Coord) : Option (String × String × Coord) :=
  match red with
  | none => none
  | some r =>
    if r.aristas.isEmpty then none
    else
      (r.aristas.foldl (fun mejor e =>
        let a := (buscaNodo r.nodos e.1).getD (0, 0)
        let b := (buscaNodo r.nodos e.2.1).getD (0, 0)
        let qd := proy p a b
        if (qd.2 : WithTop ℚ) < mejor.1 then
          ((qd.2 : WithTop ℚ), some (e.1, e.2.1, qd.1))
        else mejor)
        ((⊤ : WithTop ℚ), none)).2

/-- `_split_edge_and_connect_point` (lines 235-259): insert a node at the
projected coordinate under a fresh id `"{prefix}_{len(nodos)}"`, and add
split edges along whichever of the directions (u,v), (v,u) exist, each floored
at 0.01 km; the returned connection distance is also floored at 0.01 km. -/

def split_edge_and_connect_point (hav : Coord → Coord → ℚ)
    (proy : Coord → Coord → Coord → Coord × ℚ) (red : Red) (p : Coord)
    ( node_id_prefix : String) : Red × Option (String × ℚ) :=
  match nearest_edge_projection proy (some red) p with
  | none => (red, none)
  | some (u, v, q) =>
    let new_id := node_id_prefix ++ "_" ++ toString red.nodos.length
    let nodos1 := dictInsert red.nodos new_id q
    let dirUV := red.aristas.any (fun e => e.1 = u && e.2.1 = v)
    let dirVU := red.aristas.any (fun e => e.1 = v && e.2.1 = u)
    let d_uq := hav ((buscaNodo nodos1 u).getD (0, 0)) q
    let d_qv := hav q ((buscaNodo nodos1 v).getD (0, 0))
    let nuevas :=
      (if dirUV then [(u, new_id, max d_uq (1 / 100)), (new_id, v, max d_qv (1 / 100))]
       else []) ++
      (if dirVU then [(v, new_id, max d_qv (1 / 100)), (new_id, u, max d_uq (1 / 100))]
       else [])
    let d_conn := max (hav p q) (1 / 100)
    ({ nodos := nodos1, aristas := red.aristas ++ nuevas }, some (new_id, d_conn))

/-- `nombre.replace(' ', '_')`. -/

def reemplazaEspacios (s : String) : String :=
  String.mk (s.data.map (fun c => if c = ' ' then '_' else c))

/-- Integration of one emergency service (lines 314-321): add the
`servicio_*` node, snap it, and on success connect it to the snap node in
both directions with the uncapped connection distance. -/

def integraServicio (hav : Coord → Coord → ℚ)
    (proy : Coord → Coord → Coord → Coord × ℚ) (red : Red)
    (servicio : String × Coord) : Red :=
  let node_id := "servicio_" ++ reemplazaEspacios servicio.1
  let redA : Red := { red with nodos := dictInsert red.nodos node_id servicio.2 }
  match split_edge_and_connect_point hav proy redA servicio.2 "snap" with
  | (redB, some par) =>
      { redB with aristas := redB.aristas ++
          [(node_id, par.1, par.2), (par.1, node_id, par.2)] }
  | (redB, none) => redB

/-- Integration of one reference location (lines 323-330): as for services
under `ref_*`, but the connection weight is `min(d_conn, 0.5)`. -/

def integraReferencia (hav : Coord → Coord → ℚ)
    (proy : Coord → Coord → Coord → Coord × ℚ) (red : Red)
    (ref : String × Coord) : Red :=
  let node_id := "ref_" ++ reemplazaEspacios ref.1
  let redA : Red := { red with nodos := dictInsert red.nodos node_id ref.2 }
  match split_edge_and_connect_point hav proy redA ref.2 "snap" with
  | (redB, some par) =>
      if par.1 ≠ node_id then
        let d := min par.2 (1 / 2)
        { redB with aristas := redB.aristas ++
            [(node_id, par.1, d), (par.1, node_id, d)] }
      else redB
  | (redB, none) => redB

/-- `_integrar_servicios_en_red` (lines 309-330) on a loaded network, with the
service and reference catalogs flattened to lists in iteration order. -/

def integrar_servicios_en_red (hav : Coord → Coord → ℚ)
    (proy : Coord → Coord → Coord → Coord × ℚ)
    (servicios referencias : List (String × Coord)) (red : Red) : Red :=
  referencias.foldl (integraReferencia hav proy)
    (servicios.foldl (integraServicio hav proy) red)

/-- `cargar_red_vial` (lines 299-307) after a successful download: process the
OSM document and integrate the catalogs. -/

def cargar_red_vial (hav : Coord → Coord → ℚ)
    (proy : Coord → Coord → Coord → Coord × ℚ)
    (servicios referencias : List (String × Coord)) (data : List Elemento) : Red :=
  integrar_servicios_en_red hav proy servicios referencias
    (procesar_red_osm hav data)

/-- The weights of all (parallel) edges from `i` to `j` in an index-level
edge list. -/

def pesos {n : ℕ} (es : List (Fin n × Fin n × ℚ)) (i j : Fin n) : List ℚ :=
  es.filterMap (fun e => if e.1 = i ∧ e.2.1 = j then some e.2.2 else none)

/-- Minimum of a list of weights in `WithTop ℚ` (`⊤` when empty). -/

def minLista (L : List ℚ) : WithTop ℚ :=
  L.foldr (fun w m => min (w : WithTop ℚ) m) ⊤

/-- The minimum edge weight from `i` to `j` (`⊤` when there is no edge);
this is the value the seeding loop leaves in the distance matrix. -/

def wmin {n : ℕ} (es : List (Fin n × Fin n × ℚ)) (i j : Fin n) : WithTop ℚ :=
  minLista (pesos es i j)

/-- `EsCamino es i l j`: starting at `i`, the successive vertices `l` form a
walk ending at `j`, every hop being an edge of `es`. -/

def EsCamino {n : ℕ} (es : List (Fin n × Fin n × ℚ)) :
    Fin n → List (Fin n) → Fin n → Prop
  | i, [], j => i = j
  | i, x :: l, j => pesos es i x ≠ [] ∧ EsCamino es x l j

/-- The weight of a walk: the sum of the minimum edge weights of its hops. -/

def pesoCamino {n : ℕ} (es : List (Fin n × Fin n × ℚ)) :
    Fin n → List (Fin n) → WithTop ℚ
  | _, [] => 0
  | i, x :: l => wmin es i x + pesoCamino es x l

/-- The invariant maintained by the seeding loop and every single relaxation
step of `preparar_floyd_warshall`, given nonnegative edge weights:
the diagonals are fixed, entries are nonnegative, a successor entry is `None`
exactly on infinite off-diagonal distance, every successor points along an
edge whose weight plus the weight of some continuation walk is bounded by the
stored distance, and every finite distance overestimates some walk. -/

structure InvFW {n : ℕ} (es : List (Fin n × Fin n × ℚ)) (s : FW n) : Prop where
  diagD : ∀ i, s.dist i i = 0
  diagS : ∀ i, s.succ i i = some i
  noneg : ∀ i j, 0 ≤ s.dist i j
  sucNone : ∀ i j, i ≠ j → (s.succ i j = none ↔ s.dist i j = ⊤)
  sucSpec : ∀ i j m, i ≠ j → s.succ i j = some m →
    m ≠ i ∧ pesos es i m ≠ [] ∧
    ∃ l, EsCamino es m l j ∧ wmin es i m + pesoCamino es m l ≤ s.dist i j
  alcanza : ∀ i j, s.dist i j ≠ ⊤ →
    ∃ l, EsCamino es i l j ∧ pesoCamino es i l ≤ s.dist i j

/-- The state of the matrices once `preparar_floyd_warshall` has finished,
for an index-level edge list. -/

def fwFinal {n : ℕ} (es : List (Fin n × Fin n × ℚ)) : FW n :=
  floydWarshall (siembra (inicial n) es)


/-- The weights of all edges from id `a` to id `b` in the string-level
edge list. -/

def pesosStr (red : Red) (a b : String) : List ℚ :=
  red.aristas.filterMap (fun e => if e.1 = a ∧ e.2.1 = b then some e.2.2 else none)

/-- Minimum edge weight between two node ids. -/

def wminStr (red : Red) (a b : String) : WithTop ℚ := minLista (pesosStr red a b)

/-- Every consecutive pair of the id list is joined by an edge of the graph. -/

def CadenaAristas (red : Red) : List String → Prop
  | [] => True
  | [_] => True
  | a :: b :: resto => (∃ w, (a, b, w) ∈ red.aristas) ∧ CadenaAristas red (b :: resto)

/-- Sum of the minimum edge weights along the consecutive hops of an id list. -/

def sumaPesosMin (red : Red) : List String → WithTop ℚ
  | [] => 0
  | [_] => 0
  | a :: b :: resto => wminStr red a b + sumaPesosMin red (b :: resto)


/-- A two-node test network with one bidirectional road edge of 1 km. -/

def redTestigo : Red :=
  ⟨[("A", (0, 0)), ("B", (0, 1))], [("A", "B", 1), ("B", "A", 1)]⟩

/-- The same network with only the forward edge. -/

def redTestigoUni : Red :=
  ⟨[("A", (0, 0)), ("B", (0, 1))], [("A", "B", 1)]⟩

/-- Index 0 (node A) of the test network. -/

def idxA : Fin redTestigo.nodos.length := ⟨0, by decide⟩

/-- Index 1 (node B) of the test network. -/

def idxB : Fin redTestigo.nodos.length := ⟨1, by decide⟩

/-- The route record `obtener_ruta` returns on `redTestigo` from A to B. -/

def rutaTestigo : InfoRuta :=
  ⟨["A", "B"], [(0, 0), (1, 0)], ((1 : ℚ) : WithTop ℚ),
    ((12 / 5 : ℚ) : WithTop ℚ)⟩

/-- A one-way, two-point test geometry document. -/

def dataTestigo : List Elemento :=
  [Elemento.way [(0, 0), (0, 1)] "no" ""]

theorem upd2_mismo {n : ℕ} {α : Type} (f : Fin n → Fin n → α) (i j : Fin n) (a : α) :
    upd2 f i j a i j = a := by simp [upd2]

theorem upd2_otro {n : ℕ} {α : Type} {f : Fin n → Fin n → α} {i j x y : Fin n}
    {a : α} (h : ¬(x = i ∧ y = j)) : upd2 f i j a x y = f x y := by
  simp only [upd2, if_neg h]

theorem mem_pesos {n : ℕ} {es : List (Fin n × Fin n × ℚ)} {i j : Fin n} {w : ℚ} :
    w ∈ pesos es i j ↔ (i, j, w) ∈ es := by
  constructor
  · intro h
    obtain ⟨e, he, hfe⟩ := List.mem_filterMap.mp h
    by_cases hc : e.1 = i ∧ e.2.1 = j
    · rw [if_pos hc] at hfe
      obtain ⟨h1, h2⟩ := hc
      cases hfe
      have : e = (i, j, e.2.2) := by
        obtain ⟨a, b, c⟩ := e
        simp_all
      rwa [this] at he
    · rw [if_neg hc] at hfe
      cases hfe
  · intro h
    exact List.mem_filterMap.mpr ⟨(i, j, w), h, by simp⟩

theorem minLista_le {L : List ℚ} {w : ℚ} (h : w ∈ L) :
    minLista L ≤ (w : WithTop ℚ) := by
  induction L with
  | nil => cases h
  | cons a L ih =>
    rcases List.mem_cons.mp h with rfl | h
    · exact min_le_left _ _
    · exact le_trans (min_le_right _ _) (ih h)

theorem minLista_cons (a : ℚ) (L : List ℚ) :
    minLista (a :: L) = min (a : WithTop ℚ) (minLista L) := rfl

theorem minLista_casos (L : List ℚ) :
    minLista L = ⊤ ∨ ∃ w ∈ L, minLista L = (w : WithTop ℚ) := by
  induction L with
  | nil => exact Or.inl rfl
  | cons a L ih =>
    rw [minLista_cons]
    rcases le_total ((a : WithTop ℚ)) (minLista L) with h | h
    · exact Or.inr ⟨a, List.mem_cons_self .., min_eq_left h⟩
    · rw [min_eq_right h]
      rcases ih with h0 | ⟨w, hw, h0⟩
      · exact Or.inl h0
      · exact Or.inr ⟨w, List.mem_cons_of_mem _ hw, h0⟩

theorem le_minLista {L : List ℚ} {x : WithTop ℚ} (h : ∀ w ∈ L, x ≤ (w : WithTop ℚ)) :
    x ≤ minLista L := by
  induction L with
  | nil => exact le_top
  | cons a L ih =>
    exact le_min (h a (List.mem_cons_self ..))
      (ih fun w hw => h w (List.mem_cons_of_mem _ hw))

theorem wmin_nonneg {n : ℕ} {es : List (Fin n × Fin n × ℚ)}
    (hnn : ∀ e ∈ es, 0 ≤ e.2.2) (i j : Fin n) : 0 ≤ wmin es i j := by
  refine le_minLista fun w hw => ?_
  have := hnn _ (mem_pesos.mp hw)
  exact_mod_cast this

theorem wmin_pos {n : ℕ} {es : List (Fin n × Fin n × ℚ)}
    (hp : ∀ e ∈ es, 0 < e.2.2) {i j : Fin n} (h : pesos es i j ≠ []) :
    0 < wmin es i j ∧ wmin es i j ≠ ⊤ := by
  rcases minLista_casos (pesos es i j) with hc | ⟨w, hw, hc⟩
  · rcases List.exists_mem_of_ne_nil _ h with ⟨w, hw⟩
    have := minLista_le hw
    rw [hc] at this
    exact absurd (top_le_iff.mp this) WithTop.coe_ne_top
  · have hwpos := hp _ (mem_pesos.mp hw)
    unfold wmin
    rw [hc]
    exact ⟨by exact_mod_cast hwpos, WithTop.coe_ne_top⟩

theorem esCamino_append {n : ℕ} {es : List (Fin n × Fin n × ℚ)}
    {a b c : Fin n} {l₁ l₂ : List (Fin n)} (h₁ : EsCamino es a l₁ b)
    (h₂ : EsCamino es b l₂ c) : EsCamino es a (l₁ ++ l₂) c := by
  induction l₁ generalizing a with
  | nil => cases h₁; exact h₂
  | cons x l ih => exact ⟨h₁.1, ih h₁.2⟩

theorem pesoCamino_append {n : ℕ} {es : List (Fin n × Fin n × ℚ)}
    {a b : Fin n} {l₁ : List (Fin n)} (l₂ : List (Fin n)) (h₁ : EsCamino es a l₁ b) :
    pesoCamino es a (l₁ ++ l₂) = pesoCamino es a l₁ + pesoCamino es b l₂ := by
  induction l₁ generalizing a with
  | nil => cases h₁; simp [pesoCamino]
  | cons x l ih =>
    simp only [List.cons_append, pesoCamino]
    rw [List.append_eq, ih h₁.2, add_assoc]

theorem pesoCamino_nonneg {n : ℕ} {es : List (Fin n × Fin n × ℚ)}
    (hnn : ∀ e ∈ es, 0 ≤ e.2.2) (a : Fin n) (l : List (Fin n)) :
    0 ≤ pesoCamino es a l := by
  induction l generalizing a with
  | nil => exact le_refl 0
  | cons x l ih => exact add_nonneg (wmin_nonneg hnn a x) (ih x)

theorem inv_inicial {n : ℕ} (es : List (Fin n × Fin n × ℚ)) :
    InvFW es (inicial n) := by
  constructor
  · intro i; simp [inicial]
  · intro i; simp [inicial]
  · intro i j
    by_cases h : i = j <;> simp [inicial, h]
  · intro i j hij
    simp [inicial, hij]
  · intro i j m hij hm
    simp [inicial, hij] at hm
  · intro i j h
    simp only [inicial] at h
    by_cases hij : i = j
    · subst hij
      exact ⟨[], rfl, by simp [pesoCamino, inicial]⟩
    · simp [hij] at h

theorem siembraArista_inv {n : ℕ} {es : List (Fin n × Fin n × ℚ)} {s : FW n}
    {e : Fin n × Fin n × ℚ} (he : e ∈ es) (hnn : ∀ e ∈ es, 0 ≤ e.2.2)
    (hs : InvFW es s) : InvFW es (siembraArista s e) := by
  obtain ⟨i, j, w⟩ := e
  unfold siembraArista
  by_cases hlt : (w : WithTop ℚ) < s.dist i j
  case neg => rw [if_neg hlt]; exact hs
  rw [if_pos hlt]
  have hw0 : (0 : ℚ) ≤ w := hnn _ he
  have hw0t : (0 : WithTop ℚ) ≤ (w : WithTop ℚ) := by exact_mod_cast hw0
  have hij : i ≠ j := by
    rintro rfl
    rw [hs.diagD i] at hlt
    exact absurd hlt (not_lt.mpr hw0t)
  have hwp : w ∈ pesos es i j := mem_pesos.mpr he
  refine ⟨?_, ?_, ?_, ?_, ?_, ?_⟩
  · intro a
    dsimp only
    have hc : ¬(a = i ∧ a = j) := by rintro ⟨rfl, h2⟩; exact hij h2
    rw [upd2_otro hc]
    exact hs.diagD a
  · intro a
    dsimp only
    have hc : ¬(a = i ∧ a = j) := by rintro ⟨rfl, h2⟩; exact hij h2
    rw [upd2_otro hc]
    exact hs.diagS a
  · intro x y
    dsimp only
    by_cases hc : x = i ∧ y = j
    · obtain ⟨rfl, rfl⟩ := hc
      rw [upd2_mismo]
      exact hw0t
    · rw [upd2_otro hc]
      exact hs.noneg x y
  · intro x y hxy
    dsimp only
    by_cases hc : x = i ∧ y = j
    · obtain ⟨rfl, rfl⟩ := hc
      rw [upd2_mismo, upd2_mismo]
      simp [WithTop.coe_ne_top]
    · rw [upd2_otro hc, upd2_otro hc]
      exact hs.sucNone x y hxy
  · intro x y m hxy hm
    dsimp only at hm ⊢
    by_cases hc : x = i ∧ y = j
    · obtain ⟨rfl, rfl⟩ := hc
      rw [upd2_mismo] at hm
      injection hm with hmeq
      subst hmeq
      refine ⟨Ne.symm hxy, List.ne_nil_of_mem hwp, [], rfl, ?_⟩
      rw [upd2_mismo, show pesoCamino es y ([] : List (Fin n)) = 0 from rfl,
        add_zero]
      exact minLista_le hwp
    · rw [upd2_otro hc] at hm
      rw [upd2_otro hc]
      exact hs.sucSpec x y m hxy hm
  · intro x y hne
    dsimp only at hne ⊢
    by_cases hc : x = i ∧ y = j
    · obtain ⟨rfl, rfl⟩ := hc
      refine ⟨[y], ⟨List.ne_nil_of_mem hwp, rfl⟩, ?_⟩
      rw [upd2_mismo, show pesoCamino es x [y] = wmin es x y + pesoCamino es y []
        from rfl, show pesoCamino es y ([] : List (Fin n)) = 0 from rfl, add_zero]
      exact minLista_le hwp
    · rw [upd2_otro hc] at hne ⊢
      exact hs.alcanza x y hne

theorem siembra_inv {n : ℕ} {es : List (Fin n × Fin n × ℚ)}
    (hnn : ∀ e ∈ es, 0 ≤ e.2.2) :
    ∀ (L : List (Fin n × Fin n × ℚ)) (s : FW n), (∀ e ∈ L, e ∈ es) →
      InvFW es s → InvFW es (siembra s L) := by
  intro L
  induction L with
  | nil => intro s _ hs; exact hs
  | cons e L ih =>
    intro s hsub hs
    exact ih _ (fun f hf => hsub f (List.mem_cons_of_mem _ hf))
      (siembraArista_inv (hsub e (List.mem_cons_self ..)) hnn hs)

theorem relajaCelda_inv {n : ℕ} {es : List (Fin n × Fin n × ℚ)} {s : FW n}
    {k i : Fin n} {dik : WithTop ℚ} (j : Fin n)
    (hs : InvFW es s) (hik : s.dist i k = dik) :
    InvFW es (relajaCelda k i dik s j) ∧ (relajaCelda k i dik s j).dist i k = dik := by
  unfold relajaCelda
  by_cases hlt : dik + s.dist k j < s.dist i j
  case neg => rw [if_neg hlt]; exact ⟨hs, hik⟩
  rw [if_pos hlt]
  have hdik0 : (0 : WithTop ℚ) ≤ dik := hik ▸ hs.noneg i k
  have hij : i ≠ j := by
    rintro rfl
    rw [hs.diagD i] at hlt
    exact absurd hlt (not_lt.mpr (add_nonneg hdik0 (hs.noneg k i)))
  have hjk : j ≠ k := by
    rintro rfl
    rw [hs.diagD j, add_zero, hik] at hlt
    exact lt_irrefl _ hlt
  have hik' : i ≠ k := by
    rintro rfl
    have hd0 : dik = 0 := by rw [← hik, hs.diagD]
    rw [hd0, zero_add] at hlt
    exact lt_irrefl _ hlt
  have halt_ne : dik + s.dist k j ≠ ⊤ := ne_top_of_lt hlt
  obtain ⟨hdik_ne, hkj_ne⟩ := WithTop.add_ne_top.mp halt_ne
  have hsucik : s.succ i k ≠ none := by
    intro hn
    exact hdik_ne (by rw [← hik]; exact (hs.sucNone i k hik').mp hn)
  obtain ⟨m, hm⟩ := Option.ne_none_iff_exists'.mp hsucik
  obtain ⟨hmi, hedge, l₁, hcam₁, hw₁⟩ := hs.sucSpec i k m hik' hm
  have hw₁' : wmin es i m + pesoCamino es m l₁ ≤ dik := hik ▸ hw₁
  obtain ⟨l₂, hcam₂, hw₂⟩ := hs.alcanza k j hkj_ne
  obtain ⟨l₃, hcam₃, hw₃⟩ := hs.alcanza i k (by rw [hik]; exact hdik_ne)
  have hw₃' : pesoCamino es i l₃ ≤ dik := hik ▸ hw₃
  rw [hm]
  refine ⟨⟨?_, ?_, ?_, ?_, ?_, ?_⟩, ?_⟩
  · intro a
    dsimp only
    have hc : ¬(a = i ∧ a = j) := by rintro ⟨rfl, h2⟩; exact hij h2
    rw [upd2_otro hc]
    exact hs.diagD a
  · intro a
    dsimp only
    have hc : ¬(a = i ∧ a = j) := by rintro ⟨rfl, h2⟩; exact hij h2
    rw [upd2_otro hc]
    exact hs.diagS a
  · intro x y
    dsimp only
    by_cases hc : x = i ∧ y = j
    · obtain ⟨rfl, rfl⟩ := hc
      rw [upd2_mismo]
      exact add_nonneg hdik0 (hs.noneg k y)
    · rw [upd2_otro hc]
      exact hs.noneg x y
  · intro x y hxy
    dsimp only
    by_cases hc : x = i ∧ y = j
    · obtain ⟨rfl, rfl⟩ := hc
      rw [upd2_mismo, upd2_mismo]
      simp [halt_ne]
    · rw [upd2_otro hc, upd2_otro hc]
      exact hs.sucNone x y hxy
  · intro x y m₀ hxy hm₀
    dsimp only at hm₀ ⊢
    by_cases hc : x = i ∧ y = j
    · obtain ⟨rfl, rfl⟩ := hc
      rw [upd2_mismo] at hm₀
      injection hm₀ with hmeq
      subst hmeq
      refine ⟨hmi, hedge, l₁ ++ l₂, esCamino_append hcam₁ hcam₂, ?_⟩
      rw [upd2_mismo, pesoCamino_append l₂ hcam₁, ← add_assoc]
      exact add_le_add hw₁' hw₂
    · rw [upd2_otro hc] at hm₀
      rw [upd2_otro hc]
      exact hs.sucSpec x y m₀ hxy hm₀
  · intro x y hne
    dsimp only at hne ⊢
    by_cases hc : x = i ∧ y = j
    · obtain ⟨rfl, rfl⟩ := hc
      refine ⟨l₃ ++ l₂, esCamino_append hcam₃ hcam₂, ?_⟩
      rw [upd2_mismo, pesoCamino_append l₂ hcam₃]
      exact add_le_add hw₃' hw₂
    · rw [upd2_otro hc] at hne ⊢
      exact hs.alcanza x y hne
  · dsimp only
    have hc : ¬(i = i ∧ k = j) := by rintro ⟨_, h2⟩; exact hjk h2.symm
    rw [upd2_otro hc]
    exact hik

theorem filaFold_inv {n : ℕ} {es : List (Fin n × Fin n × ℚ)} {k i : Fin n}
    {dik : WithTop ℚ} :
    ∀ (L : List (Fin n)) (s : FW n), InvFW es s → s.dist i k = dik →
      InvFW es (L.foldl (relajaCelda k i dik) s) ∧
        (L.foldl (relajaCelda k i dik) s).dist i k = dik := by
  intro L
  induction L with
  | nil => intro s hs hik; exact ⟨hs, hik⟩
  | cons j L ih =>
    intro s hs hik
    obtain ⟨h1, h2⟩ := relajaCelda_inv j hs hik
    exact ih _ h1 h2

theorem relajaFila_inv {n : ℕ} {es : List (Fin n × Fin n × ℚ)} {s : FW n}
    {k i : Fin n} (hs : InvFW es s) : InvFW es (relajaFila k s i) := by
  unfold relajaFila
  by_cases htop : s.dist i k = ⊤
  · rw [if_pos htop]; exact hs
  · rw [if_neg htop]; exact (filaFold_inv _ s hs rfl).1

theorem relajaK_inv {n : ℕ} {es : List (Fin n × Fin n × ℚ)} {s : FW n}
    {k : Fin n} (hs : InvFW es s) : InvFW es (relajaK s k) := by
  unfold relajaK
  generalize (List.finRange n) = L
  induction L generalizing s with
  | nil => exact hs
  | cons i L ih => exact ih (relajaFila_inv hs)

theorem foldK_inv {n : ℕ} {es : List (Fin n × Fin n × ℚ)} :
    ∀ (L : List (Fin n)) (s : FW n), InvFW es s → InvFW es (L.foldl relajaK s) := by
  intro L
  induction L with
  | nil => intro s hs; exact hs
  | cons k L ih => intro s hs; exact ih _ (relajaK_inv hs)

theorem preparar_eq (red : Red) : preparar red = fwFinal (aristasIdx red) := rfl

theorem fwFinal_inv {n : ℕ} {es : List (Fin n × Fin n × ℚ)}
    (hnn : ∀ e ∈ es, 0 ≤ e.2.2) : InvFW es (fwFinal es) :=
  foldK_inv _ _ (siembra_inv hnn es _ (fun _ he => he) (inv_inicial es))

theorem dist_relajaCelda_le {n : ℕ} (k i : Fin n) (dik : WithTop ℚ) (s : FW n)
    (j a b : Fin n) : (relajaCelda k i dik s j).dist a b ≤ s.dist a b := by
  unfold relajaCelda
  by_cases hlt : dik + s.dist k j < s.dist i j
  · rw [if_pos hlt]
    dsimp only
    by_cases hc : a = i ∧ b = j
    · obtain ⟨rfl, rfl⟩ := hc
      rw [upd2_mismo]
      exact le_of_lt hlt
    · rw [upd2_otro hc]
  · rw [if_neg hlt]

theorem dist_foldl_le {n : ℕ} {β : Type} {f : FW n → β → FW n}
    (hf : ∀ (s : FW n) (b : β) (a c : Fin n), (f s b).dist a c ≤ s.dist a c) :
    ∀ (L : List β) (s : FW n) (a c : Fin n), (L.foldl f s).dist a c ≤ s.dist a c := by
  intro L
  induction L with
  | nil => intro s a c; exact le_refl _
  | cons b L ih =>
    intro s a c
    exact le_trans (ih (f s b) a c) (hf s b a c)

theorem dist_relajaFila_le {n : ℕ} (k : Fin n) (s : FW n) (i a b : Fin n) :
    (relajaFila k s i).dist a b ≤ s.dist a b := by
  unfold relajaFila
  by_cases htop : s.dist i k = ⊤
  · rw [if_pos htop]
  · rw [if_neg htop]
    exact dist_foldl_le (fun s2 j a2 c2 => dist_relajaCelda_le k i _ s2 j a2 c2)
      _ s a b

theorem dist_relajaK_le {n : ℕ} (s : FW n) (k a b : Fin n) :
    (relajaK s k).dist a b ≤ s.dist a b :=
  dist_foldl_le (fun s2 i a2 c2 => dist_relajaFila_le k s2 i a2 c2) _ s a b

theorem dist_siembraArista_le {n : ℕ} (s : FW n) (e : Fin n × Fin n × ℚ)
    (a b : Fin n) : (siembraArista s e).dist a b ≤ s.dist a b := by
  unfold siembraArista
  by_cases hlt : (e.2.2 : WithTop ℚ) < s.dist e.1 e.2.1
  · rw [if_pos hlt]
    dsimp only
    by_cases hc : a = e.1 ∧ b = e.2.1
    · obtain ⟨rfl, rfl⟩ := hc
      rw [upd2_mismo]
      exact le_of_lt hlt
    · rw [upd2_otro hc]
  · rw [if_neg hlt]

theorem siembra_le_peso {n : ℕ} {e : Fin n × Fin n × ℚ} :
    ∀ (L : List (Fin n × Fin n × ℚ)) (s : FW n), e ∈ L →
      (siembra s L).dist e.1 e.2.1 ≤ (e.2.2 : WithTop ℚ) := by
  intro L
  induction L with
  | nil => intro s h; cases h
  | cons f L ih =>
    intro s h
    rcases List.mem_cons.mp h with rfl | h
    · have h1 : (siembraArista s e).dist e.1 e.2.1 ≤ (e.2.2 : WithTop ℚ) := by
        unfold siembraArista
        by_cases hlt : (e.2.2 : WithTop ℚ) < s.dist e.1 e.2.1
        · rw [if_pos hlt]
          dsimp only
          rw [upd2_mismo]
        · rw [if_neg hlt]
          exact le_of_not_lt hlt
      exact le_trans (dist_foldl_le dist_siembraArista_le L _ e.1 e.2.1) h1
    · exact ih _ h

theorem siembra_le_wmin {n : ℕ} (es : List (Fin n × Fin n × ℚ)) (i j : Fin n) :
    (siembra (inicial n) es).dist i j ≤ wmin es i j := by
  refine le_minLista fun w hw => ?_
  exact siembra_le_peso es _ (mem_pesos.mp hw)

theorem siembra_diag_le {n : ℕ} (es : List (Fin n × Fin n × ℚ)) (i : Fin n) :
    (siembra (inicial n) es).dist i i ≤ 0 := by
  have h := dist_foldl_le dist_siembraArista_le es (inicial n) i i
  simpa [inicial] using h

theorem relajaCelda_cota {n : ℕ} (k i : Fin n) (dik : WithTop ℚ) (s : FW n)
    (j : Fin n) : (relajaCelda k i dik s j).dist i j ≤ dik + s.dist k j := by
  unfold relajaCelda
  by_cases hlt : dik + s.dist k j < s.dist i j
  · rw [if_pos hlt]
    dsimp only
    rw [upd2_mismo]
  · rw [if_neg hlt]
    exact le_of_not_lt hlt

theorem filaFold_cota {n : ℕ} {k i : Fin n} {dik : WithTop ℚ} {j : Fin n} :
    ∀ (L : List (Fin n)) (s : FW n), j ∈ L →
      ((L.foldl (relajaCelda k i dik) s).dist i j) ≤ dik + s.dist k j := by
  intro L
  induction L with
  | nil => intro s h; cases h
  | cons x L ih =>
    intro s h
    rcases List.mem_cons.mp h with rfl | h
    · refine le_trans (dist_foldl_le (dist_relajaCelda_le k i dik) L _ i j) ?_
      exact relajaCelda_cota k i dik s j
    · refine le_trans (ih _ h) ?_
      exact add_le_add_left (dist_relajaCelda_le k i dik s x k j) dik

theorem relajaFila_cota {n : ℕ} (k : Fin n) (s : FW n) (i j : Fin n) :
    (relajaFila k s i).dist i j ≤ s.dist i k + s.dist k j := by
  unfold relajaFila
  by_cases htop : s.dist i k = ⊤
  · rw [if_pos htop, htop, top_add]
    exact le_top
  · rw [if_neg htop]
    exact filaFold_cota (List.finRange n) s (List.mem_finRange j)

theorem relajaK_cota {n : ℕ} (s : FW n) (k i j : Fin n) :
    (relajaK s k).dist i j ≤ s.dist i k + s.dist k j := by
  obtain ⟨L1, L2, hsplit⟩ := List.append_of_mem (List.mem_finRange i)
  unfold relajaK
  rw [hsplit, List.foldl_append, List.foldl_cons]
  refine le_trans
    (dist_foldl_le (fun s2 b a2 c2 => dist_relajaFila_le k s2 b a2 c2) L2 _ i j) ?_
  refine le_trans (relajaFila_cota k (L1.foldl (relajaFila k) s) i j) ?_
  exact add_le_add
    (dist_foldl_le (fun s2 b a2 c2 => dist_relajaFila_le k s2 b a2 c2) L1 s i k)
    (dist_foldl_le (fun s2 b a2 c2 => dist_relajaFila_le k s2 b a2 c2) L1 s k j)

theorem primera_aparicion {α : Type} [DecidableEq α] {a : α} :
    ∀ {l : List α}, a ∈ l → ∃ l₁ l₂, l = l₁ ++ a :: l₂ ∧ a ∉ l₁ := by
  intro l h
  induction l with
  | nil => cases h
  | cons x resto ih =>
    by_cases hx : a = x
    · exact ⟨[], resto, by simp [hx], by simp⟩
    · rcases List.mem_cons.mp h with h1 | h1
      · exact absurd h1 hx
      · obtain ⟨l₁, l₂, heq, hna⟩ := ih h1
        exact ⟨x :: l₁, l₂, by rw [heq]; rfl, by simp [hx, hna]⟩

theorem esCamino_corta {n : ℕ} {es : List (Fin n × Fin n × ℚ)} :
    ∀ {l₁ l₂ : List (Fin n)} {i k j : Fin n},
      EsCamino es i (l₁ ++ k :: l₂) j →
      EsCamino es i (l₁ ++ [k]) k ∧ EsCamino es k l₂ j := by
  intro l₁
  induction l₁ with
  | nil =>
    intro l₂ i k j h
    exact ⟨⟨h.1, rfl⟩, h.2⟩
  | cons x resto ih =>
    intro l₂ i k j h
    obtain ⟨h1, h2⟩ := ih h.2
    exact ⟨⟨h.1, h1⟩, h2⟩

theorem pesoCamino_corta {n : ℕ} {es : List (Fin n × Fin n × ℚ)}
    {l₁ l₂ : List (Fin n)} {i k j : Fin n}
    (h : EsCamino es i (l₁ ++ k :: l₂) j) :
    pesoCamino es i (l₁ ++ k :: l₂) =
      pesoCamino es i (l₁ ++ [k]) + pesoCamino es k l₂ := by
  have h1 := (esCamino_corta h).1
  rw [show l₁ ++ k :: l₂ = (l₁ ++ [k]) ++ l₂ by simp]
  exact pesoCamino_append l₂ h1

theorem mem_dropLast_cons {α : Type} {x k : α} {lb : List α}
    (hx : x ∈ lb.dropLast) : x ∈ (k :: lb).dropLast := by
  cases lb with
  | nil => cases hx
  | cons b resto =>
    rw [List.dropLast_cons₂]
    exact List.mem_cons_of_mem _ hx

/-- Splitting a walk through `k` into a prefix walk to `k` and a suffix walk
from `k`, both avoiding `k` as an intermediate vertex, without increasing the
total weight (the possibly repeated passages through `k` are cut out; this
needs nonnegative weights). -/
theorem separaEnK {n : ℕ} {es : List (Fin n × Fin n × ℚ)}
    (hnn : ∀ e ∈ es, 0 ≤ e.2.2) (k : Fin n) :
    ∀ (N : ℕ) (l : List (Fin n)) (i j : Fin n), l.length ≤ N →
      EsCamino es i l j → k ∈ l.dropLast →
      ∃ l₁ l₂, EsCamino es i l₁ k ∧ EsCamino es k l₂ j ∧
        k ∉ l₁.dropLast ∧ k ∉ l₂.dropLast ∧
        (∀ x ∈ l₁.dropLast, x ∈ l.dropLast) ∧
        (∀ x ∈ l₂.dropLast, x ∈ l.dropLast) ∧
        pesoCamino es i l₁ + pesoCamino es k l₂ ≤ pesoCamino es i l := by
  intro N
  induction N with
  | zero =>
    intro l i j hlen hcam hk
    have : l = [] := List.length_eq_zero.mp (Nat.le_zero.mp hlen)
    subst this
    cases hk
  | succ N ih =>
    intro l i j hlen hcam hk
    have hkl : k ∈ l := (List.dropLast_sublist l).subset hk
    obtain ⟨la, lb, rfl, hka⟩ := primera_aparicion hkl
    obtain ⟨h1, h2⟩ := esCamino_corta hcam
    have hpeso := pesoCamino_corta hcam
    have hl₁drop : (la ++ [k]).dropLast = la := List.dropLast_concat
    by_cases hkb : k ∈ lb.dropLast
    · have hlb_len : lb.length ≤ N := by
        have := hlen
        rw [List.length_append, List.length_cons] at this
        omega
      obtain ⟨m₁, m₂, _, hm2, _, hk2, _, hsub2, hpes⟩ := ih lb k j hlb_len h2 hkb
      refine ⟨la ++ [k], m₂, h1, hm2, ?_, hk2, ?_, ?_, ?_⟩
      · rw [hl₁drop]; exact hka
      · rw [hl₁drop]
        intro x hx
        rw [List.dropLast_append_cons]
        exact List.mem_append_left _ hx
      · intro x hx
        rw [List.dropLast_append_cons]
        exact List.mem_append_right _ (mem_dropLast_cons (hsub2 x hx))
      · rw [hpeso]
        refine add_le_add_left ?_ _
        refine le_trans ?_ hpes
        exact le_add_of_nonneg_left (pesoCamino_nonneg hnn k m₁)
    · refine ⟨la ++ [k], lb, h1, h2, ?_, hkb, ?_, ?_, le_of_eq hpeso.symm⟩
      · rw [hl₁drop]; exact hka
      · rw [hl₁drop]
        intro x hx
        rw [List.dropLast_append_cons]
        exact List.mem_append_left _ hx
      · intro x hx
        rw [List.dropLast_append_cons]
        exact List.mem_append_right _ (mem_dropLast_cons hx)

/-- After relaxing the intermediates `ks` (starting from the seeded matrices),
the distance entry is bounded by the weight of every walk whose intermediate
vertices all lie in `ks`. -/
theorem cota_superior_fold {n : ℕ} {es : List (Fin n × Fin n × ℚ)}
    (hnn : ∀ e ∈ es, 0 ≤ e.2.2) :
    ∀ (ks : List (Fin n)) (i j : Fin n) (l : List (Fin n)),
      EsCamino es i l j → (∀ x ∈ l.dropLast, x ∈ ks) →
      (ks.foldl relajaK (siembra (inicial n) es)).dist i j ≤ pesoCamino es i l := by
  intro ks
  induction ks using List.reverseRecOn with
  | nil =>
    intro i j l hcam hsub
    cases l with
    | nil =>
      have hij : i = j := hcam
      subst hij
      exact siembra_diag_le es i
    | cons x resto =>
      cases resto with
      | nil =>
        obtain ⟨hne, hx⟩ := hcam
        have hxj : x = j := hx
        rw [List.foldl_nil, ← hxj,
          show pesoCamino es i [x] = wmin es i x + pesoCamino es x [] from rfl,
          show pesoCamino es x ([] : List (Fin n)) = 0 from rfl, add_zero]
        exact siembra_le_wmin es i x
      | cons y resto2 =>
        exact absurd (hsub x (by rw [List.dropLast_cons₂]; exact List.mem_cons_self ..))
          (List.not_mem_nil x)
  | append_singleton ks k ih =>
    intro i j l hcam hsub
    rw [List.foldl_append, List.foldl_cons, List.foldl_nil]
    by_cases hkin : k ∈ l.dropLast
    · obtain ⟨l₁, l₂, hc₁, hc₂, hk₁, hk₂, hs₁, hs₂, hpes⟩ :=
        separaEnK hnn k l.length l i j (le_refl _) hcam hkin
      have hsub₁ : ∀ x ∈ l₁.dropLast, x ∈ ks := by
        intro x hx
        rcases List.mem_append.mp (hsub x (hs₁ x hx)) with h | h
        · exact h
        · rw [List.mem_singleton] at h
          exact absurd (h ▸ hx) hk₁
      have hsub₂ : ∀ x ∈ l₂.dropLast, x ∈ ks := by
        intro x hx
        rcases List.mem_append.mp (hsub x (hs₂ x hx)) with h | h
        · exact h
        · rw [List.mem_singleton] at h
          exact absurd (h ▸ hx) hk₂
      refine le_trans (relajaK_cota _ k i j) (le_trans ?_ hpes)
      exact add_le_add (ih i k l₁ hc₁ hsub₁) (ih k j l₂ hc₂ hsub₂)
    · have hsub' : ∀ x ∈ l.dropLast, x ∈ ks := by
        intro x hx
        rcases List.mem_append.mp (hsub x hx) with h | h
        · exact h
        · rw [List.mem_singleton] at h
          exact absurd (h ▸ hx) hkin
      exact le_trans (dist_relajaK_le _ k i j) (ih i j l hcam hsub')

/-- The final Floyd–Warshall distance is bounded by the weight of every walk. -/
theorem fwFinal_cota_camino {n : ℕ} {es : List (Fin n × Fin n × ℚ)}
    (hnn : ∀ e ∈ es, 0 ≤ e.2.2) {i j : Fin n} {l : List (Fin n)}
    (hcam : EsCamino es i l j) :
    (fwFinal es).dist i j ≤ pesoCamino es i l :=
  cota_superior_fold hnn (List.finRange n) i j l hcam
    (fun x _ => List.mem_finRange x)

/-- At the final state, each successor step follows an actual edge and the
stored distance telescopes: `wmin(i,m) + dist(m,j) ≤ dist(i,j)`. -/
theorem fwFinal_local {n : ℕ} {es : List (Fin n × Fin n × ℚ)}
    (hnn : ∀ e ∈ es, 0 ≤ e.2.2) {i j m : Fin n} (hij : i ≠ j)
    (hm : (fwFinal es).succ i j = some m) :
    m ≠ i ∧ pesos es i m ≠ [] ∧
      wmin es i m + (fwFinal es).dist m j ≤ (fwFinal es).dist i j := by
  obtain ⟨hmi, hedge, l, hcam, hw⟩ := (fwFinal_inv hnn).sucSpec i j m hij hm
  exact ⟨hmi, hedge,
    le_trans (add_le_add_left (fwFinal_cota_camino hnn hcam) _) hw⟩

theorem no_suma_le {a w : WithTop ℚ} (ha : a ≠ ⊤) (hw : 0 < w) : ¬(w + a ≤ a) := by
  intro h
  cases a with
  | top => exact ha rfl
  | coe q =>
    cases w with
    | top =>
      rw [top_add, top_le_iff] at h
      exact WithTop.coe_ne_top h
    | coe r =>
      rw [← WithTop.coe_add, WithTop.coe_le_coe] at h
      have hr : (0 : ℚ) < r := by exact_mod_cast hw
      linarith

/-- The `medida`-bounded termination of the successor walk: from any start
with a non-`None` successor entry, fuel `c + 1` suffices when at most `c`
nodes are strictly closer to the destination. -/
theorem caminaSuc_aux {n : ℕ} {es : List (Fin n × Fin n × ℚ)}
    (hp : ∀ e ∈ es, 0 < e.2.2) (j : Fin n) :
    ∀ (c : ℕ) (i : Fin n),
      (Finset.univ.filter
        (fun x => (fwFinal es).dist x j < (fwFinal es).dist i j)).card ≤ c →
      (fwFinal es).succ i j ≠ none →
      ∃ l, caminaSuc (fwFinal es).succ j (c + 1) i = some l := by
  have hnn : ∀ e ∈ es, 0 ≤ e.2.2 := fun e he => le_of_lt (hp e he)
  have hinv := fwFinal_inv hnn
  intro c
  induction c with
  | zero =>
    intro i hmed hsuc
    by_cases hij : i = j
    · exact ⟨[i], by simp [caminaSuc, hij]⟩
    · exfalso
      obtain ⟨m, hm⟩ := Option.ne_none_iff_exists'.mp hsuc
      have hne_top : (fwFinal es).dist i j ≠ ⊤ := by
        intro ht
        exact hsuc ((hinv.sucNone i j hij).mpr ht)
      obtain ⟨hmi, hedge, hloc⟩ := fwFinal_local hnn hij hm
      have hwp := wmin_pos hp hedge
      have hmj_ne : (fwFinal es).dist m j ≠ ⊤ := by
        intro ht
        rw [ht, add_top] at hloc
        exact hne_top (top_le_iff.mp hloc)
      have hlt : (fwFinal es).dist m j < (fwFinal es).dist i j := by
        by_contra hge
        rw [not_lt] at hge
        exact no_suma_le hmj_ne hwp.1 (le_trans hloc hge)
      have : m ∈ Finset.univ.filter
          (fun x => (fwFinal es).dist x j < (fwFinal es).dist i j) := by
        simp [hlt]
      have hcard := Finset.card_pos.mpr ⟨m, this⟩
      omega
  | succ c ih =>
    intro i hmed hsuc
    by_cases hij : i = j
    · exact ⟨[i], by simp [caminaSuc, hij]⟩
    · obtain ⟨m, hm⟩ := Option.ne_none_iff_exists'.mp hsuc
      have hne_top : (fwFinal es).dist i j ≠ ⊤ := by
        intro ht
        exact hsuc ((hinv.sucNone i j hij).mpr ht)
      obtain ⟨hmi, hedge, hloc⟩ := fwFinal_local hnn hij hm
      have hwp := wmin_pos hp hedge
      have hmj_ne : (fwFinal es).dist m j ≠ ⊤ := by
        intro ht
        rw [ht, add_top] at hloc
        exact hne_top (top_le_iff.mp hloc)
      have hlt : (fwFinal es).dist m j < (fwFinal es).dist i j := by
        by_contra hge
        rw [not_lt] at hge
        exact no_suma_le hmj_ne hwp.1 (le_trans hloc hge)
      have hsubset : Finset.univ.filter
          (fun x => (fwFinal es).dist x j < (fwFinal es).dist m j) ⊆
          Finset.univ.filter
          (fun x => (fwFinal es).dist x j < (fwFinal es).dist i j) := by
        intro x hx
        simp only [Finset.mem_filter, Finset.mem_univ, true_and] at hx ⊢
        exact lt_trans hx hlt
      have hm_in : m ∈ Finset.univ.filter
          (fun x => (fwFinal es).dist x j < (fwFinal es).dist i j) := by
        simp [hlt]
      have hm_not : m ∉ Finset.univ.filter
          (fun x => (fwFinal es).dist x j < (fwFinal es).dist m j) := by
        simp
      have hss := Finset.card_lt_card
        ((Finset.ssubset_iff_of_subset hsubset).mpr ⟨m, hm_in, hm_not⟩)
      have hmedm : (Finset.univ.filter
          (fun x => (fwFinal es).dist x j < (fwFinal es).dist m j)).card ≤ c := by
        omega
      have hsucm : (fwFinal es).succ m j ≠ none := by
        by_cases hmj : m = j
        · rw [hmj, hinv.diagS j]
          exact Option.some_ne_none j
        · intro hn
          exact hmj_ne ((hinv.sucNone m j hmj).mp hn)
      obtain ⟨l, hl⟩ := ih m hmedm hsucm
      refine ⟨i :: l, ?_⟩
      have hstep : caminaSuc (fwFinal es).succ j (c + 1 + 1) i =
          (caminaSuc (fwFinal es).succ j (c + 1) m).map (i :: ·) := by
        conv_lhs => rw [caminaSuc]
        rw [if_neg hij, hm]
      rw [hstep, hl, Option.map_some']

/-- Any successful successor walk at the final state is a genuine walk in the
graph from start to destination, and its hop-minimum weights sum exactly to
the stored distance. -/
theorem caminaSuc_espec {n : ℕ} {es : List (Fin n × Fin n × ℚ)}
    (hnn : ∀ e ∈ es, 0 ≤ e.2.2) :
    ∀ (f : ℕ) (i j : Fin n) (l : List (Fin n)),
      caminaSuc (fwFinal es).succ j f i = some l →
      ∃ resto, l = i :: resto ∧ EsCamino es i resto j ∧
        pesoCamino es i resto = (fwFinal es).dist i j := by
  intro f
  induction f with
  | zero =>
    intro i j l h
    exact absurd h (by simp [caminaSuc])
  | succ f ih =>
    intro i j l h
    rw [caminaSuc] at h
    by_cases hij : i = j
    · rw [if_pos hij] at h
      injection h with h2
      refine ⟨[], h2.symm, hij, ?_⟩
      subst hij
      exact ((fwFinal_inv hnn).diagD i).symm
    · rw [if_neg hij] at h
      cases hsuc : (fwFinal es).succ i j with
      | none => rw [hsuc] at h; cases h
      | some m =>
        rw [hsuc] at h
        obtain ⟨l₂, hl₂, rfl⟩ := Option.map_eq_some'.mp h
        obtain ⟨resto, rfl, hcam, hpeso⟩ := ih m j l₂ hl₂
        obtain ⟨hmi, hedge, hloc⟩ := fwFinal_local hnn hij hsuc
        refine ⟨m :: resto, rfl, ⟨hedge, hcam⟩, ?_⟩
        have hub : (fwFinal es).dist i j ≤ pesoCamino es i (m :: resto) :=
          fwFinal_cota_camino hnn ⟨hedge, hcam⟩
        rw [show pesoCamino es i (m :: resto) =
          wmin es i m + pesoCamino es m resto from rfl, hpeso] at hub ⊢
        exact le_antisymm (hpeso ▸ hloc) hub

theorem esCamino_getLast {n : ℕ} {es : List (Fin n × Fin n × ℚ)} :
    ∀ {resto : List (Fin n)} {i j : Fin n}, EsCamino es i resto j →
      (i :: resto).getLast? = some j := by
  intro resto
  induction resto with
  | nil =>
    intro i j h
    have : i = j := h
    simp [this]
  | cons x rest ih =>
    intro i j h
    rw [List.getLast?_cons_cons]
    exact ih h.2

theorem mem_pesosStr {red : Red} {a b : String} {w : ℚ} :
    w ∈ pesosStr red a b ↔ (a, b, w) ∈ red.aristas := by
  constructor
  · intro h
    obtain ⟨e, he, hfe⟩ := List.mem_filterMap.mp h
    by_cases hc : e.1 = a ∧ e.2.1 = b
    · rw [if_pos hc] at hfe
      obtain ⟨h1, h2⟩ := hc
      cases hfe
      have : e = (a, b, e.2.2) := by
        obtain ⟨x, y, z⟩ := e
        simp_all
      rwa [this] at he
    · rw [if_neg hc] at hfe
      cases hfe
  · intro h
    exact List.mem_filterMap.mpr ⟨(a, b, w), h, by simp⟩

theorem idxNat_get :
    ∀ {l : List (String × Coord)} {s : String} {k : ℕ}
      (h : idxNat l s = some k) (hk : k < l.length), (l.get ⟨k, hk⟩).1 = s := by
  intro l
  induction l with
  | nil => intro s k h hk; cases h
  | cons p resto ih =>
    intro s k h hk
    by_cases hp : p.1 = s
    · rw [idxNat, if_pos hp] at h
      injection h with h2
      subst h2
      exact hp
    · rw [idxNat, if_neg hp] at h
      cases hm : idxNat resto s with
      | none => rw [hm] at h; cases h
      | some m =>
        rw [hm, Option.map_some'] at h
        injection h with h2
        subst h2
        exact ih hm (by simp only [List.length_cons] at hk; omega)

theorem idxNat_nodup_get :
    ∀ {l : List (String × Coord)}, (l.map Prod.fst).Nodup →
      ∀ (i : Fin l.length), idxNat l (l.get i).1 = some i.val := by
  intro l
  induction l with
  | nil => intro _ i; exact absurd i.isLt (by simp)
  | cons p resto ih =>
    intro hnd i
    rw [List.map_cons, List.nodup_cons] at hnd
    obtain ⟨hp_nin, hnd2⟩ := hnd
    cases i using Fin.cases with
    | zero => simp [idxNat]
    | succ i2 =>
      have hget : ((p :: resto).get i2.succ) = resto.get i2 := rfl
      rw [idxNat]
      have hcond : ¬(p.1 = ((p :: resto).get i2.succ).1) := by
        rw [hget]
        intro he
        apply hp_nin
        rw [he]
        exact List.mem_map_of_mem Prod.fst (List.get_mem resto _ _)
      rw [if_neg hcond, hget, ih hnd2 i2, Option.map_some', Fin.val_succ]

theorem indiceDe_idxNat {l : List (String × Coord)} {s : String}
    {i : Fin l.length} (h : indiceDe l s = some i) : idxNat l s = some i.val := by
  unfold indiceDe at h
  split at h
  · cases h
  · rename_i k hk
    injection h with h2
    subst h2
    exact hk

theorem indiceDe_get {l : List (String × Coord)} {s : String} {i : Fin l.length}
    (h : indiceDe l s = some i) : (l.get i).1 = s :=
  idxNat_get (indiceDe_idxNat h) i.isLt

theorem indiceDe_get_self {l : List (String × Coord)}
    (hnd : (l.map Prod.fst).Nodup) (i : Fin l.length) :
    indiceDe l (l.get i).1 = some i := by
  unfold indiceDe
  split
  · rename_i hnone
    rw [idxNat_nodup_get hnd i] at hnone
    cases hnone
  · rename_i k hk
    rw [idxNat_nodup_get hnd i] at hk
    injection hk with h2
    subst h2
    exact congrArg some (Fin.eta i _)

theorem pesos_puente {red : Red} (hnd : (red.nodos.map Prod.fst).Nodup)
    (i j : Fin red.nodos.length) :
    pesos (aristasIdx red) i j =
      pesosStr red (red.nodos.get i).1 (red.nodos.get j).1 := by
  unfold pesos aristasIdx pesosStr
  rw [List.filterMap_filterMap]
  apply List.filterMap_congr
  intro e _
  cases hu : indiceDe red.nodos e.1 with
  | none =>
    have hcond : ¬(e.1 = (red.nodos.get i).1 ∧ e.2.1 = (red.nodos.get j).1) := by
      rintro ⟨h1, _⟩
      rw [h1, indiceDe_get_self hnd i] at hu
      cases hu
    rw [if_neg hcond]
    rfl
  | some a =>
    cases hv : indiceDe red.nodos e.2.1 with
    | none =>
      have hcond : ¬(e.1 = (red.nodos.get i).1 ∧ e.2.1 = (red.nodos.get j).1) := by
        rintro ⟨_, h2⟩
        rw [h2, indiceDe_get_self hnd j] at hv
        cases hv
      rw [if_neg hcond]
      rfl
    | some b =>
      have hiff : (a = i ∧ b = j) ↔
          (e.1 = (red.nodos.get i).1 ∧ e.2.1 = (red.nodos.get j).1) := by
        constructor
        · rintro ⟨rfl, rfl⟩
          exact ⟨(indiceDe_get hu).symm, (indiceDe_get hv).symm⟩
        · rintro ⟨h1, h2⟩
          rw [h1, indiceDe_get_self hnd i] at hu
          rw [h2, indiceDe_get_self hnd j] at hv
          injection hu with hu2
          injection hv with hv2
          exact ⟨hu2.symm, hv2.symm⟩
      show (if a = i ∧ b = j then some e.2.2 else none) = _
      rw [if_congr hiff rfl rfl]

theorem wmin_puente {red : Red} (hnd : (red.nodos.map Prod.fst).Nodup)
    (i j : Fin red.nodos.length) :
    wmin (aristasIdx red) i j =
      wminStr red (red.nodos.get i).1 (red.nodos.get j).1 := by
  unfold wmin wminStr
  rw [pesos_puente hnd]

theorem esCamino_cadena {red : Red} (hnd : (red.nodos.map Prod.fst).Nodup) :
    ∀ {resto : List (Fin red.nodos.length)} {i j : Fin red.nodos.length},
      EsCamino (aristasIdx red) i resto j →
      CadenaAristas red ((i :: resto).map (fun t => (red.nodos.get t).1)) := by
  intro resto
  induction resto with
  | nil => intro i j _; trivial
  | cons x rest ih =>
    intro i j h
    refine ⟨?_, ih h.2⟩
    have hne := h.1
    rw [pesos_puente hnd] at hne
    obtain ⟨w, hw⟩ := List.exists_mem_of_ne_nil _ hne
    exact ⟨w, mem_pesosStr.mp hw⟩

theorem pesoCamino_suma {red : Red} (hnd : (red.nodos.map Prod.fst).Nodup) :
    ∀ (resto : List (Fin red.nodos.length)) (i : Fin red.nodos.length),
      sumaPesosMin red ((i :: resto).map (fun t => (red.nodos.get t).1)) =
        pesoCamino (aristasIdx red) i resto := by
  intro resto
  induction resto with
  | nil => intro i; rfl
  | cons x rest ih =>
    intro i
    show wminStr red (red.nodos.get i).1 (red.nodos.get x).1 +
        sumaPesosMin red ((x :: rest).map (fun t => (red.nodos.get t).1)) = _
    rw [ih x, ← wmin_puente hnd]
    rfl

theorem aristasIdx_pesa {red : Red} {P : ℚ → Prop}
    (hp : ∀ e ∈ red.aristas, P e.2.2) : ∀ e ∈ aristasIdx red, P e.2.2 := by
  intro e he
  obtain ⟨e0, he0, hfe⟩ := List.mem_filterMap.mp he
  cases hu : indiceDe red.nodos e0.1 with
  | none =>
    rw [hu] at hfe
    exact Option.noConfusion hfe
  | some a =>
    cases hv : indiceDe red.nodos e0.2.1 with
    | none =>
      rw [hu, hv] at hfe
      exact Option.noConfusion hfe
    | some b =>
      rw [hu, hv] at hfe
      injection hfe with h2
      subst h2
      exact hp e0 he0

theorem mem_aristasIdx {red : Red} {u v : String} {w : ℚ}
    {i j : Fin red.nodos.length} (hm : (u, v, w) ∈ red.aristas)
    (hi : indiceDe red.nodos u = some i) (hj : indiceDe red.nodos v = some j) :
    (i, j, w) ∈ aristasIdx red := by
  refine List.mem_filterMap.mpr ⟨(u, v, w), hm, ?_⟩
  rw [show (u, v, w).1 = u from rfl, show (u, v, w).2.1 = v from rfl, hi, hj]

/-- Structure of a successful `obtener_ruta` call: the flag was set, both ids
resolved, and the record's fields come from the successor walk and the
distance matrix. -/
theorem obtener_ruta_some {s : Sistema} {origen destino : String} {r : InfoRuta}
    (h : obtener_ruta s origen destino = some r) :
    s.fw_preparado = true ∧
    ∃ (i j : Fin s.red_vial.nodos.length) (ruta : List (Fin s.red_vial.nodos.length)),
      indiceDe s.red_vial.nodos origen = some i ∧
      indiceDe s.red_vial.nodos destino = some j ∧
      caminaSuc (preparar s.red_vial).succ j (s.red_vial.nodos.length + 1) i =
        some ruta ∧
      r.ruta_nodos = ruta.map (fun idx => (s.red_vial.nodos.get idx).1) ∧
      r.distancia_km = (preparar s.red_vial).dist i j := by
  unfold obtener_ruta at h
  by_cases hflag : s.fw_preparado = false
  · rw [if_pos hflag] at h
    cases h
  · rw [if_neg hflag] at h
    refine ⟨by revert hflag; cases s.fw_preparado <;> simp, ?_⟩
    split at h
    · rename_i i j hi hj
      split at h
      · cases h
      · rename_i m hm
        split at h
        · cases h
        · rename_i ruta hruta
          injection h with h2
          subst h2
          exact ⟨i, j, ruta, hi, hj, hruta, rfl, rfl⟩
    · cases h

/-- When preparation is flagged, both ids resolve, and the successor entry is
set, the route query succeeds (the reconstruction loop terminates, by
`caminaSuc_aux`). -/
theorem obtener_ruta_exito {s : Sistema} {origen destino : String}
    {i j : Fin s.red_vial.nodos.length}
    (hp : ∀ e ∈ s.red_vial.aristas, 0 < e.2.2)
    (hflag : s.fw_preparado = true)
    (hi : indiceDe s.red_vial.nodos origen = some i)
    (hj : indiceDe s.red_vial.nodos destino = some j)
    (hsuc : (preparar s.red_vial).succ i j ≠ none) :
    ∃ r, obtener_ruta s origen destino = some r := by
  obtain ⟨l, hl0⟩ := caminaSuc_aux (aristasIdx_pesa hp) j s.red_vial.nodos.length i
    (le_trans (Finset.card_filter_le _ _) (le_of_eq (by simp))) hsuc
  have hl : caminaSuc (preparar s.red_vial).succ j
      (s.red_vial.nodos.length + 1) i = some l := hl0
  obtain ⟨m, hm⟩ := Option.ne_none_iff_exists'.mp hsuc
  unfold obtener_ruta
  have hcond : ¬(s.fw_preparado = false) := by rw [hflag]; simp
  rw [if_neg hcond]
  split
  · rename_i i2 j2 hi2 hj2
    rw [hi] at hi2
    injection hi2 with hieq
    subst hieq
    rw [hj] at hj2
    injection hj2 with hjeq
    subst hjeq
    split
    · rename_i hm2
      rw [hm2] at hm
      cases hm
    · split
      · rename_i hl2
        rw [hl2] at hl
        cases hl
      · exact ⟨_, rfl⟩
  · rename_i hfalta
    exact (hfalta i j hi hj).elim

theorem obtener_ruta_none_noprep {s : Sistema} (hflag : s.fw_preparado = false)
    (origen destino : String) : obtener_ruta s origen destino = none := by
  unfold obtener_ruta
  rw [if_pos hflag]

theorem obtener_ruta_none_origen {s : Sistema} {origen : String}
    (ho : indiceDe s.red_vial.nodos origen = none) (destino : String) :
    obtener_ruta s origen destino = none := by
  unfold obtener_ruta
  by_cases hflag : s.fw_preparado = false
  · rw [if_pos hflag]
  · rw [if_neg hflag]
    split
    · rename_i i j hi hj
      rw [ho] at hi
      cases hi
    · rfl

theorem obtener_ruta_none_destino {s : Sistema} {destino : String}
    (hd : indiceDe s.red_vial.nodos destino = none) (origen : String) :
    obtener_ruta s origen destino = none := by
  unfold obtener_ruta
  by_cases hflag : s.fw_preparado = false
  · rw [if_pos hflag]
  · rw [if_neg hflag]
    split
    · rename_i i j hi hj
      rw [hd] at hj
      cases hj
    · rfl

theorem obtener_ruta_none_suc {s : Sistema} {origen destino : String}
    {i j : Fin s.red_vial.nodos.length}
    (hi : indiceDe s.red_vial.nodos origen = some i)
    (hj : indiceDe s.red_vial.nodos destino = some j)
    (hsuc : (preparar s.red_vial).succ i j = none) :
    obtener_ruta s origen destino = none := by
  unfold obtener_ruta
  by_cases hflag : s.fw_preparado = false
  · rw [if_pos hflag]
  · rw [if_neg hflag]
    split
    · rename_i i2 j2 hi2 hj2
      rw [hi] at hi2
      injection hi2 with hieq
      subst hieq
      rw [hj] at hj2
      injection hj2 with hjeq
      subst hjeq
      split
      · rfl
      · rename_i m hm
        rw [hsuc] at hm
        cases hm
    · rfl

/-- C2: after a successful preparation, any route the query reconstructs for
known node ids starts at the origin, ends at the destination, follows edges of
the prepared graph hop by hop, and the minimum edge weights along those hops
sum exactly to the returned total distance, which is the distance-matrix entry
of the pair.  (Edge weights of a loaded network are nonnegative — they are
floored at 0.01 km, cf. C5 — and node ids, being dict keys, are unique.) -/
theorem ruta_reconstruida_correcta
    (red : Red) (hnn : ∀ e ∈ red.aristas, 0 ≤ e.2.2)
    (hnd : (red.nodos.map Prod.fst).Nodup)
    (origen destino : String) (r : InfoRuta)
    (h : obtener_ruta ⟨red, true⟩ origen destino = some r) :
    r.ruta_nodos.head? = some origen ∧
    r.ruta_nodos.getLast? = some destino ∧
    CadenaAristas red r.ruta_nodos ∧
    sumaPesosMin red r.ruta_nodos = r.distancia_km ∧
    ∃ (i j : Fin red.nodos.length),
      indiceDe red.nodos origen = some i ∧
      indiceDe red.nodos destino = some j ∧
      r.distancia_km = (preparar red).dist i j := by
  obtain ⟨-, i, j, ruta, hi, hj, hruta, hmap, hdist⟩ := obtener_ruta_some h
  dsimp only at hi hj hruta hmap hdist
  have hnnIdx : ∀ e ∈ aristasIdx red, 0 ≤ e.2.2 := aristasIdx_pesa hnn
  have hruta2 : caminaSuc (fwFinal (aristasIdx red)).succ j
      (red.nodos.length + 1) i = some ruta := hruta
  obtain ⟨resto, rfl, hcam, hpeso⟩ :=
    caminaSuc_espec hnnIdx (red.nodos.length + 1) i j ruta hruta2
  refine ⟨?_, ?_, ?_, ?_, i, j, hi, hj, hdist⟩
  · rw [hmap]
    simp only [List.map_cons, List.head?_cons]
    rw [indiceDe_get hi]
  · rw [hmap, List.getLast?_map, esCamino_getLast hcam, Option.map_some',
      indiceDe_get hj]
  · rw [hmap]
    exact esCamino_cadena hnd hcam
  · rw [hmap, pesoCamino_suma hnd resto i, hpeso, hdist]
    rfl

/-- C3: after a successful preparation every diagonal distance entry is 0 and
every diagonal successor entry is the node's own index, and no prefix of the
triple-nested relaxation (starting from the seeded matrices) ever changes a
diagonal entry.  (Edge weights of a loaded network are nonnegative.) -/
theorem diagonal_tras_preparacion (red : Red)
    (hnn : ∀ e ∈ red.aristas, 0 ≤ e.2.2) (i : Fin red.nodos.length) :
    (preparar red).dist i i = 0 ∧ (preparar red).succ i i = some i ∧
    ∀ (ks : List (Fin red.nodos.length)),
      (ks.foldl relajaK
        (siembra (inicial red.nodos.length) (aristasIdx red))).dist i i = 0 ∧
      (ks.foldl relajaK
        (siembra (inicial red.nodos.length) (aristasIdx red))).succ i i = some i := by
  have hnnIdx : ∀ e ∈ aristasIdx red, 0 ≤ e.2.2 := aristasIdx_pesa hnn
  refine ⟨(fwFinal_inv hnnIdx).diagD i, (fwFinal_inv hnnIdx).diagS i, fun ks => ?_⟩
  have hsem := siembra_inv hnnIdx (aristasIdx red) (inicial _)
    (fun _ he => he) (inv_inicial _)
  have hk := foldK_inv ks _ hsem
  exact ⟨hk.diagD i, hk.diagS i⟩

/-- C4: after preparation, for every edge (u, v, w) of the prepared graph the
distance-matrix entry from u to v is at most w (the seeding puts in the
minimum parallel weight and the relaxation only ever decreases entries). -/
theorem arista_cota_distancia (red : Red) (u v : String) (w : ℚ)
    (hm : (u, v, w) ∈ red.aristas) (i j : Fin red.nodos.length)
    (hi : indiceDe red.nodos u = some i) (hj : indiceDe red.nodos v = some j) :
    (preparar red).dist i j ≤ (w : WithTop ℚ) := by
  have he : (i, j, w) ∈ aristasIdx red := mem_aristasIdx hm hi hj
  have h1 : (preparar red).dist i j ≤
      (siembra (inicial red.nodos.length) (aristasIdx red)).dist i j := by
    unfold preparar floydWarshall
    exact dist_foldl_le (fun s2 k a c => dist_relajaK_le s2 k a c) _ _ i j
  exact le_trans h1 (siembra_le_peso _ _ he)

/-- C8: the route query returns `None` exactly when preparation has not been
flagged, or one of the two ids is unknown to the index mapping, or the
successor entry of the pair is `None`; being a total function, it models the
Python code never raising in these cases.  (Edge weights of a loaded network
are strictly positive — floored at 0.01 km — which is what makes the
reconstruction loop terminate in the remaining case.) -/
theorem ruta_none_iff (red : Red) (hp : ∀ e ∈ red.aristas, 0 < e.2.2)
    (bandera : Bool) (origen destino : String) :
    obtener_ruta ⟨red, bandera⟩ origen destino = none ↔
      bandera = false ∨ indiceDe red.nodos origen = none ∨
      indiceDe red.nodos destino = none ∨
      ∃ (i j : Fin red.nodos.length),
        indiceDe red.nodos origen = some i ∧
        indiceDe red.nodos destino = some j ∧
        (preparar red).succ i j = none := by
  constructor
  · intro h
    by_cases hflag : bandera = false
    · exact Or.inl hflag
    cases ho : indiceDe red.nodos origen with
    | none => exact Or.inr (Or.inl rfl)
    | some i =>
      cases hd : indiceDe red.nodos destino with
      | none => exact Or.inr (Or.inr (Or.inl rfl))
      | some j =>
        cases hsuc : (preparar red).succ i j with
        | none => exact Or.inr (Or.inr (Or.inr ⟨i, j, rfl, rfl, hsuc⟩))
        | some m =>
          exfalso
          have hflag2 : bandera = true := by revert hflag; cases bandera <;> simp
          obtain ⟨r, hr⟩ := @obtener_ruta_exito ⟨red, bandera⟩ origen destino i j
            hp hflag2 ho hd (by rw [hsuc]; simp)
          rw [h] at hr
          cases hr
  · intro h
    rcases h with hflag | ho | hd | ⟨i, j, hi, hj, hsuc⟩
    · exact obtener_ruta_none_noprep hflag origen destino
    · exact obtener_ruta_none_origen ho destino
    · exact obtener_ruta_none_destino hd origen
    · exact obtener_ruta_none_suc hi hj hsuc

/-- C10: after a successful preparation, for known node ids whose successor
entry is set, the successor-pointer walk of the reconstruction loop reaches
the destination index in finitely many steps (fuel `n + 1` suffices) without
ever hitting a `None` entry, starting at the origin index and ending at the
destination index.  (Edge weights of a loaded network are strictly
positive.) -/
theorem caminata_sucesores_termina (red : Red)
    (hp : ∀ e ∈ red.aristas, 0 < e.2.2) (origen destino : String)
    (i j : Fin red.nodos.length)
    (hi : indiceDe red.nodos origen = some i)
    (hj : indiceDe red.nodos destino = some j)
    (hsuc : (preparar red).succ i j ≠ none) :
    ∃ l, caminaSuc (preparar red).succ j (red.nodos.length + 1) i = some l ∧
      l.head? = some i ∧ l.getLast? = some j := by
  obtain ⟨l, hl⟩ := caminaSuc_aux (aristasIdx_pesa hp) j red.nodos.length i
    (le_trans (Finset.card_filter_le _ _) (le_of_eq (by simp))) hsuc
  have hnn : ∀ e ∈ aristasIdx red, 0 ≤ e.2.2 :=
    fun e he => le_of_lt (aristasIdx_pesa hp e he)
  obtain ⟨resto, rfl, hcam, -⟩ :=
    caminaSuc_espec hnn (red.nodos.length + 1) i j l hl
  exact ⟨i :: resto, hl, rfl, esCamino_getLast hcam⟩

theorem pasoCercano_fold {hav : Coord → Coord → ℚ} {c : Coord} :
    ∀ (l : List (String × Coord)) (d0 : WithTop ℚ) (b0 : Option String),
      (l.foldl (pasoCercano hav c) (d0, b0)).1 ≤ d0 ∧
      (∀ p ∈ l, escaneado p.1 = true →
        (l.foldl (pasoCercano hav c) (d0, b0)).1 ≤ ((hav c p.2 : ℚ) : WithTop ℚ)) ∧
      (l.foldl (pasoCercano hav c) (d0, b0) = (d0, b0) ∨
        ∃ p ∈ l, escaneado p.1 = true ∧
          l.foldl (pasoCercano hav c) (d0, b0) =
            (((hav c p.2 : ℚ) : WithTop ℚ), some p.1)) := by
  intro l
  induction l with
  | nil =>
    intro d0 b0
    exact ⟨le_refl _, fun p hp => absurd hp (List.not_mem_nil p), Or.inl rfl⟩
  | cons p l ih =>
    intro d0 b0
    cases hskip : empiezaCon p.1 "servicio_" || empiezaCon p.1 "ref_" with
    | true =>
      have hstep : pasoCercano hav c (d0, b0) p = (d0, b0) := by
        unfold pasoCercano
        rw [if_pos hskip]
      have hesc : escaneado p.1 = false := by
        unfold escaneado
        rw [hskip]
        rfl
      rw [List.foldl_cons, hstep]
      obtain ⟨h1, h2, h3⟩ := ih d0 b0
      refine ⟨h1, ?_, ?_⟩
      · intro q hq hqe
        rcases List.mem_cons.mp hq with rfl | hq2
        · rw [hesc] at hqe
          cases hqe
        · exact h2 q hq2 hqe
      · rcases h3 with h3 | ⟨q, hq, hqe, hfe⟩
        · exact Or.inl h3
        · exact Or.inr ⟨q, List.mem_cons_of_mem _ hq, hqe, hfe⟩
    | false =>
      have hnskip : ¬(empiezaCon p.1 "servicio_" || empiezaCon p.1 "ref_") = true := by
        rw [hskip]
        simp
      have hesc : escaneado p.1 = true := by
        unfold escaneado
        rw [hskip]
        rfl
      by_cases hlt : ((hav c p.2 : ℚ) : WithTop ℚ) < d0
      · have hstep : pasoCercano hav c (d0, b0) p =
            (((hav c p.2 : ℚ) : WithTop ℚ), some p.1) := by
          unfold pasoCercano
          rw [if_neg hnskip, if_pos hlt]
        rw [List.foldl_cons, hstep]
        obtain ⟨h1, h2, h3⟩ := ih ((hav c p.2 : ℚ) : WithTop ℚ) (some p.1)
        refine ⟨le_trans h1 (le_of_lt hlt), ?_, ?_⟩
        · intro q hq hqe
          rcases List.mem_cons.mp hq with rfl | hq2
          · exact h1
          · exact h2 q hq2 hqe
        · rcases h3 with h3 | ⟨q, hq, hqe, hfe⟩
          · exact Or.inr ⟨p, List.mem_cons_self .., hesc, h3⟩
          · exact Or.inr ⟨q, List.mem_cons_of_mem _ hq, hqe, hfe⟩
      · have hstep : pasoCercano hav c (d0, b0) p = (d0, b0) := by
          unfold pasoCercano
          rw [if_neg hnskip, if_neg hlt]
        rw [List.foldl_cons, hstep]
        obtain ⟨h1, h2, h3⟩ := ih d0 b0
        refine ⟨h1, ?_, ?_⟩
        · intro q hq hqe
          rcases List.mem_cons.mp hq with rfl | hq2
          · exact le_trans h1 (not_lt.mp hlt)
          · exact h2 q hq2 hqe
        · rcases h3 with h3 | ⟨q, hq, hqe, hfe⟩
          · exact Or.inl h3
          · exact Or.inr ⟨q, List.mem_cons_of_mem _ hq, hqe, hfe⟩

/-- C1 (counterexample): on a network whose only node id is `snap_0`, the
code's scan returns that snap node (snap-prefixed ids are not excluded),
while the scan the claim describes — which also excludes `snap_`-prefixed
ids — returns `None`. -/
theorem nodo_cercano_incluye_snap :
    encontrar_nodo_mas_cercano (fun _ _ => 0)
      (some ⟨[("snap_0", (0, 0))], []⟩) (0, 0) = some "snap_0" ∧
    encontrar_nodo_spec (fun _ _ => 0)
      (some ⟨[("snap_0", (0, 0))], []⟩) (0, 0) = none ∧
    empiezaCon "snap_0" "snap_" = true := by
  refine ⟨?_, ?_, ?_⟩ <;> decide

/-- C1 (amended): the nearest-node scan excludes exactly the ids with a
service or reference prefix (snap-prefixed nodes are scanned); it returns
`None` iff the network is absent, has no nodes, or none of its nodes is
scanned, and any returned id is a scanned node of minimum `hav`-distance
among the scanned nodes. -/
theorem nodo_cercano_caracterizacion (hav : Coord → Coord → ℚ) (c : Coord) :
    encontrar_nodo_mas_cercano hav none c = none ∧
    ∀ (r : Red),
      (encontrar_nodo_mas_cercano hav (some r) c = none ↔
        (r.nodos = [] ∨ ∀ p ∈ r.nodos, escaneado p.1 = false)) ∧
      (∀ nid, encontrar_nodo_mas_cercano hav (some r) c = some nid →
        ∃ cn, (nid, cn) ∈ r.nodos ∧ escaneado nid = true ∧
          ∀ p ∈ r.nodos, escaneado p.1 = true → hav c cn ≤ hav c p.2) := by
  refine ⟨rfl, fun r => ⟨?_, ?_⟩⟩
  · rw [show encontrar_nodo_mas_cercano hav (some r) c =
      (if r.nodos.isEmpty then none
       else (r.nodos.foldl (pasoCercano hav c) ((⊤ : WithTop ℚ), none)).2)
      from rfl]
    by_cases hemp : r.nodos.isEmpty
    · rw [if_pos hemp]
      exact iff_of_true rfl (Or.inl (List.isEmpty_iff.mp hemp))
    · rw [if_neg hemp]
      obtain ⟨h1, h2, h3⟩ := pasoCercano_fold r.nodos (⊤ : WithTop ℚ) none
      constructor
      · intro hnone
        refine Or.inr fun p hp => ?_
        by_contra hesc
        rw [Bool.not_eq_false] at hesc
        rcases h3 with h3 | ⟨q, _, _, hfe⟩
        · have := h2 p hp hesc
          rw [h3] at this
          exact absurd (top_le_iff.mp this) WithTop.coe_ne_top
        · rw [hfe] at hnone
          cases hnone
      · intro h
        rcases h with h | h
        · exact absurd (List.isEmpty_iff.mpr h) hemp
        · rcases h3 with h3 | ⟨q, hq, hqe, _⟩
          · rw [h3]
          · rw [h q hq] at hqe
            cases hqe
  · intro nid hnid
    rw [show encontrar_nodo_mas_cercano hav (some r) c =
      (if r.nodos.isEmpty then none
       else (r.nodos.foldl (pasoCercano hav c) ((⊤ : WithTop ℚ), none)).2)
      from rfl] at hnid
    by_cases hemp : r.nodos.isEmpty
    · rw [if_pos hemp] at hnid
      cases hnid
    · rw [if_neg hemp] at hnid
      obtain ⟨h1, h2, h3⟩ := @pasoCercano_fold hav c r.nodos
        (⊤ : WithTop ℚ) none
      rcases h3 with h3 | ⟨q, hq, hqe, hfe⟩
      · rw [h3] at hnid
        cases hnid
      · rw [hfe] at hnid
        injection hnid with hnid2
        subst hnid2
        refine ⟨q.2, by simpa using hq, hqe, ?_⟩
        intro p hp hpe
        have := h2 p hp hpe
        rw [hfe] at this
        dsimp only at this
        exact_mod_cast this

theorem conserva_cero (s len : ℕ) : conserva s len 0 = true := by
  unfold conserva
  simp [Nat.zero_mod]

theorem conserva_multiplo (s len : ℕ) {idx : ℕ} (h : idx % s = 0) :
    conserva s len idx = true := by
  unfold conserva
  simp [h]

theorem conserva_ultimo (s : ℕ) {len idx : ℕ} (h : idx = len - 1) :
    conserva s len idx = true := by
  unfold conserva
  simp [h]

theorem conservadosDesde_ultimo {s len : ℕ} :
    ∀ (resto : List Coord) (idx : ℕ) {c : Coord}, idx + resto.length = len →
      resto.getLast? = some c → c ∈ conservadosDesde s len idx resto := by
  intro resto
  induction resto with
  | nil =>
    intro idx c _ hlast
    cases hlast
  | cons a resto2 ih =>
    intro idx c hlen hlast
    cases resto2 with
    | nil =>
      rw [List.getLast?_singleton] at hlast
      injection hlast with hac
      subst hac
      have hkeep : conserva s len idx = true := by
        refine conserva_ultimo s ?_
        simp only [List.length_cons, List.length_nil] at hlen
        omega
      rw [conservadosDesde, if_pos hkeep]
      exact List.mem_cons_self ..
    | cons b resto3 =>
      rw [List.getLast?_cons_cons] at hlast
      have hrec := ih (idx + 1)
        (by simp only [List.length_cons] at hlen ⊢; omega) hlast
      rw [conservadosDesde]
      by_cases hkeep : conserva s len idx = true
      · rw [if_pos hkeep]
        exact List.mem_cons_of_mem _ hrec
      · rw [if_neg hkeep]
        exact hrec

theorem conservadosDesde_multiplo {s len : ℕ} :
    ∀ (resto : List Coord) (idx0 k : ℕ) (hk : k < resto.length),
      (idx0 + k) % s = 0 →
      resto.get ⟨k, hk⟩ ∈ conservadosDesde s len idx0 resto := by
  intro resto
  induction resto with
  | nil =>
    intro idx0 k hk _
    exact absurd hk (by simp)
  | cons a resto2 ih =>
    intro idx0 k hk hmod
    cases k with
    | zero =>
      have hkeep : conserva s len idx0 = true :=
        conserva_multiplo s len (by simpa using hmod)
      rw [conservadosDesde, if_pos hkeep]
      exact List.mem_cons_self ..
    | succ k2 =>
      have hrec := ih (idx0 + 1) k2
        (by simp only [List.length_cons] at hk; omega)
        (by rw [show idx0 + 1 + k2 = idx0 + (k2 + 1) by omega]; exact hmod)
      rw [conservadosDesde]
      by_cases hkeep : conserva s len idx0 = true
      · rw [if_pos hkeep]
        exact List.mem_cons_of_mem _ hrec
      · rw [if_neg hkeep]
        exact hrec

theorem conservadosDesde_uno {s len : ℕ} :
    ∀ (resto : List Coord) (idx : ℕ), resto ≠ [] → idx + resto.length = len →
      1 ≤ (conservadosDesde s len idx resto).length := by
  intro resto
  induction resto with
  | nil => intro idx h _; exact absurd rfl h
  | cons a resto2 ih =>
    intro idx _ hlen
    cases resto2 with
    | nil =>
      have hkeep : conserva s len idx = true := by
        refine conserva_ultimo s ?_
        simp only [List.length_cons, List.length_nil] at hlen
        omega
      rw [conservadosDesde, if_pos hkeep]
      simp
    | cons b resto3 =>
      have hrec := ih (idx + 1) (by simp)
        (by simp only [List.length_cons] at hlen ⊢; omega)
      rw [conservadosDesde]
      by_cases hkeep : conserva s len idx = true
      · rw [if_pos hkeep]
        simp only [List.length_cons]
        omega
      · rw [if_neg hkeep]
        exact hrec

/-- C6: for every way with at least two geometry points and every downsample
stride, the kept-point sequence has length at least 2, contains the way's
original last coordinate, and keeps every point whose index is a multiple of
the stride (the final point is always kept). -/
theorem submuestreo_conserva_final (s : ℕ) (geom : List Coord)
    (h2 : 2 ≤ geom.length) :
    2 ≤ (puntosConservados s geom).length ∧
    (∀ c, geom.getLast? = some c → c ∈ puntosConservados s geom) ∧
    (∀ (idx : ℕ) (hidx : idx < geom.length), idx % s = 0 →
      geom.get ⟨idx, hidx⟩ ∈ puntosConservados s geom) := by
  refine ⟨?_, ?_, ?_⟩
  · unfold puntosConservados
    cases geom with
    | nil => simp at h2
    | cons a resto =>
      have hrest : resto ≠ [] := by
        intro he
        rw [he] at h2
        simp at h2
      rw [conservadosDesde, if_pos (conserva_cero s _)]
      have h1 := @conservadosDesde_uno s (a :: resto).length resto 1
        hrest (by simp only [List.length_cons]; omega)
      show 2 ≤ (conservadosDesde s (a :: resto).length 1 resto).length + 1
      omega
  · intro c hlast
    exact conservadosDesde_ultimo geom 0 (by simp) hlast
  · intro idx hidx hmod
    exact conservadosDesde_multiplo geom 0 idx hidx (by simpa using hmod)

theorem dictInsert_fresco {l : List (String × Coord)} {k : String} (v : Coord)
    (h : ∀ par ∈ l, par.1 ≠ k) : dictInsert l k v = l ++ [(k, v)] := by
  unfold dictInsert
  rw [if_neg]
  intro hany
  obtain ⟨p, hp, hpk⟩ := List.any_eq_true.mp hany
  exact h p hp (of_decide_eq_true hpk)

/-- C9: splitting an edge to connect a snapped point never removes or changes
a pre-existing node or edge: every node pair and every weighted edge present
before the call is still present, unchanged, afterwards; the operation only
appends — at most one node and at most four edges.  (The hypothesis says the
fresh id `"{prefix}_{len(nodos)}"` is unused, which holds in the integration
pipeline where the node count strictly grows and prefixes differ.) -/
theorem split_preserva_red (hav : Coord → Coord → ℚ)
    (proy : Coord → Coord → Coord → Coord × ℚ) (red : Red) (p : Coord)
    (pre : String)
    (hfresh : ∀ par ∈ red.nodos, par.1 ≠ pre ++ "_" ++ toString red.nodos.length) :
    ∃ (ns : List (String × Coord)) (es : List (String × String × ℚ)),
      (split_edge_and_connect_point hav proy red p pre).1.nodos =
        red.nodos ++ ns ∧
      ns.length ≤ 1 ∧
      (split_edge_and_connect_point hav proy red p pre).1.aristas =
        red.aristas ++ es ∧
      es.length ≤ 4 ∧
      (∀ par ∈ red.nodos,
        par ∈ (split_edge_and_connect_point hav proy red p pre).1.nodos) ∧
      (∀ e ∈ red.aristas,
        e ∈ (split_edge_and_connect_point hav proy red p pre).1.aristas) := by
  unfold split_edge_and_connect_point
  cases hproj : nearest_edge_projection proy (some red) p with
  | none =>
    refine ⟨[], [], ?_, ?_, ?_, ?_, ?_, ?_⟩ <;> simp
  | some t =>
    obtain ⟨u, v, q⟩ := t
    dsimp only
    rw [dictInsert_fresco q hfresh]
    refine ⟨_, _, rfl, by simp, rfl, ?_, ?_, ?_⟩
    · split <;> split <;> simp
    · intro par hp
      exact List.mem_append_left _ hp
    · intro e he
      exact List.mem_append_left _ he

/-- C7: when the snapping of a reference location produces a snap node (and it
differs from the reference node, as the code requires), the two connection
edges appended between the reference node and the snap node both have weight
`min(d_conn, 0.5)`, hence never above 0.5 km; service connection edges are not
capped — a service connection edge can exceed 0.5 km. -/
theorem referencia_tope_medio (hav : Coord → Coord → ℚ)
    (proy : Coord → Coord → Coord → Coord × ℚ) (red : Red) (ref : String × Coord)
    (redB : Red) (nuevo : String) (dConn : ℚ)
    (hsplit : split_edge_and_connect_point hav proy
      ⟨dictInsert red.nodos ("ref_" ++ reemplazaEspacios ref.1) ref.2,
        red.aristas⟩ ref.2 "snap" = (redB, some (nuevo, dConn)))
    (hne : nuevo ≠ "ref_" ++ reemplazaEspacios ref.1) :
    ((integraReferencia hav proy red ref).aristas =
      redB.aristas ++
        [("ref_" ++ reemplazaEspacios ref.1, nuevo, min dConn (1 / 2)),
         (nuevo, "ref_" ++ reemplazaEspacios ref.1, min dConn (1 / 2))] ∧
      min dConn (1 / 2) ≤ 1 / 2) ∧
    ∃ (hav2 : Coord → Coord → ℚ) (proy2 : Coord → Coord → Coord → Coord × ℚ)
      (red2 : Red) (sv : String × Coord) (a b : String) (w : ℚ),
      (a, b, w) ∈ (integraServicio hav2 proy2 red2 sv).aristas ∧
      (a, b, w) ∉ red2.aristas ∧ (1 : ℚ) / 2 < w := by
  constructor
  · refine ⟨?_, min_le_right _ _⟩
    unfold integraReferencia
    dsimp only
    rw [hsplit]
    dsimp only
    rw [if_pos hne]
  · refine ⟨fun _ _ => 1, fun _ _ _ => ((0, 0), 0),
      ⟨[("A", (0, 0)), ("B", (0, 1))], [("A", "B", 1)]⟩, ("S", (0, 0)),
      "servicio_S", "snap_3", 1, ?_, ?_, ?_⟩ <;> with_unfolding_all decide

theorem aristasDeVia_piso (hav : Coord → Coord → ℚ) (dm : Direccion)
    (nodos : List (String × Coord)) :
    ∀ (l : List String), ∀ e ∈ aristasDeVia hav dm nodos l, 1 / 100 ≤ e.2.2 := by
  intro l
  induction l with
  | nil => intro e he; cases he
  | cons n1 resto ih =>
    cases resto with
    | nil => intro e he; cases he
    | cons n2 resto2 =>
      intro e he
      rw [aristasDeVia] at he
      rcases List.mem_append.mp he with h | h
      · by_cases hnn : n1 = n2
        · rw [if_pos hnn] at h
          cases h
        · rw [if_neg hnn] at h
          cases dm with
          | ambos =>
            dsimp only at h
            rcases List.mem_cons.mp h with rfl | h2
            · exact le_max_right _ _
            · rcases List.mem_cons.mp h2 with rfl | h3
              · exact le_max_right _ _
              · cases h3
          | adelante =>
            dsimp only at h
            rcases List.mem_cons.mp h with rfl | h2
            · exact le_max_right _ _
            · cases h2
          | atras =>
            dsimp only at h
            rcases List.mem_cons.mp h with rfl | h2
            · exact le_max_right _ _
            · cases h2
      · exact ih e h

theorem agregaPunto_aristas (st : EstadoConstruccion × List String) (c : Coord) :
    (agregaPunto st c).1.aristas = st.1.aristas := by
  unfold agregaPunto
  dsimp only
  cases buscaClave st.1.coordAId (clave c) <;> rfl

theorem puntosFold_aristas :
    ∀ (puntos : List Coord) (st : EstadoConstruccion × List String),
      ((puntos.foldl agregaPunto st).1).aristas = st.1.aristas := by
  intro puntos
  induction puntos with
  | nil => intro st; rfl
  | cons c resto ih =>
    intro st
    rw [List.foldl_cons, ih, agregaPunto_aristas]

theorem procesaVia_piso (hav : Coord → Coord → ℚ) (paso : ℕ)
    (st : EstadoConstruccion) (el : Elemento)
    (hst : ∀ e ∈ st.aristas, 1 / 100 ≤ e.2.2) :
    ∀ e ∈ (procesaVia hav paso st el).aristas, 1 / 100 ≤ e.2.2 := by
  intro e he
  cases el with
  | otro => exact hst e he
  | way geom oneway junction =>
    unfold procesaVia at he
    dsimp only at he
    rcases List.mem_append.mp he with h | h
    · rw [puntosFold_aristas] at h
      exact hst e h
    · exact aristasDeVia_piso hav _ _ _ e h

theorem procesar_piso (hav : Coord → Coord → ℚ) (data : List Elemento) :
    ∀ e ∈ (procesar_red_osm hav data).aristas, 1 / 100 ≤ e.2.2 := by
  have hfold : ∀ (l : List Elemento) (st : EstadoConstruccion),
      (∀ e ∈ st.aristas, 1 / 100 ≤ e.2.2) →
      ∀ e ∈ (l.foldl (procesaVia hav (pasoSubmuestreo data)) st).aristas,
        1 / 100 ≤ e.2.2 := by
    intro l
    induction l with
    | nil => intro st h; exact h
    | cons el l ih =>
      intro st h
      exact ih _ (procesaVia_piso hav _ st el h)
  exact hfold data ⟨[], [], 0, []⟩ (fun e he => absurd he (List.not_mem_nil e))

theorem split_piso (hav : Coord → Coord → ℚ)
    (proy : Coord → Coord → Coord → Coord × ℚ) (red : Red) (p : Coord)
    (pre : String) (h : ∀ e ∈ red.aristas, 1 / 100 ≤ e.2.2) :
    (∀ e ∈ (split_edge_and_connect_point hav proy red p pre).1.aristas,
      1 / 100 ≤ e.2.2) ∧
    (∀ nid d, (split_edge_and_connect_point hav proy red p pre).2 = some (nid, d) →
      1 / 100 ≤ d) := by
  unfold split_edge_and_connect_point
  cases nearest_edge_projection proy (some red) p with
  | none =>
    refine ⟨h, ?_⟩
    intro nid d hd
    cases hd
  | some t =>
    obtain ⟨u, v, q⟩ := t
    dsimp only
    constructor
    · intro e he
      rcases List.mem_append.mp he with h1 | h1
      · exact h e h1
      · rcases List.mem_append.mp h1 with h2 | h2
        · split at h2
          · rcases List.mem_cons.mp h2 with rfl | h3
            · exact le_max_right _ _
            · rcases List.mem_cons.mp h3 with rfl | h4
              · exact le_max_right _ _
              · cases h4
          · cases h2
        · split at h2
          · rcases List.mem_cons.mp h2 with rfl | h3
            · exact le_max_right _ _
            · rcases List.mem_cons.mp h3 with rfl | h4
              · exact le_max_right _ _
              · cases h4
          · cases h2
    · intro nid d hd
      injection hd with hd2
      injection hd2 with hd3 hd4
      subst hd4
      exact le_max_right _ _

theorem integraServicio_piso (hav : Coord → Coord → ℚ)
    (proy : Coord → Coord → Coord → Coord × ℚ) (red : Red) (sv : String × Coord)
    (h : ∀ e ∈ red.aristas, 1 / 100 ≤ e.2.2) :
    ∀ e ∈ (integraServicio hav proy red sv).aristas, 1 / 100 ≤ e.2.2 := by
  have hs := split_piso hav proy
    ⟨dictInsert red.nodos ("servicio_" ++ reemplazaEspacios sv.1) sv.2,
      red.aristas⟩ sv.2 "snap" h
  unfold integraServicio
  dsimp only
  cases hsp : split_edge_and_connect_point hav proy
      ⟨dictInsert red.nodos ("servicio_" ++ reemplazaEspacios sv.1) sv.2,
        red.aristas⟩ sv.2 "snap" with
  | mk redB opt =>
    rw [hsp] at hs
    cases opt with
    | none => exact hs.1
    | some par =>
      intro e he
      rcases List.mem_append.mp he with h1 | h1
      · exact hs.1 e h1
      · have hd : 1 / 100 ≤ par.2 := hs.2 par.1 par.2 rfl
        rcases List.mem_cons.mp h1 with rfl | h2
        · exact hd
        · rcases List.mem_cons.mp h2 with rfl | h3
          · exact hd
          · cases h3

theorem integraReferencia_piso (hav : Coord → Coord → ℚ)
    (proy : Coord → Coord → Coord → Coord × ℚ) (red : Red) (rf : String × Coord)
    (h : ∀ e ∈ red.aristas, 1 / 100 ≤ e.2.2) :
    ∀ e ∈ (integraReferencia hav proy red rf).aristas, 1 / 100 ≤ e.2.2 := by
  have hs := split_piso hav proy
    ⟨dictInsert red.nodos ("ref_" ++ reemplazaEspacios rf.1) rf.2,
      red.aristas⟩ rf.2 "snap" h
  unfold integraReferencia
  dsimp only
  cases hsp : split_edge_and_connect_point hav proy
      ⟨dictInsert red.nodos ("ref_" ++ reemplazaEspacios rf.1) rf.2,
        red.aristas⟩ rf.2 "snap" with
  | mk redB opt =>
    rw [hsp] at hs
    cases opt with
    | none => exact hs.1
    | some par =>
      dsimp only
      split
      · intro e he
        rcases List.mem_append.mp he with h1 | h1
        · exact hs.1 e h1
        · have hd : 1 / 100 ≤ par.2 := hs.2 par.1 par.2 rfl
          have hdm : (1 : ℚ) / 100 ≤ min par.2 (1 / 2) :=
            le_min hd (by norm_num)
          rcases List.mem_cons.mp h1 with rfl | h2
          · exact hdm
          · rcases List.mem_cons.mp h2 with rfl | h3
            · exact hdm
            · cases h3
      · exact hs.1

theorem integrar_piso (hav : Coord → Coord → ℚ)
    (proy : Coord → Coord → Coord → Coord × ℚ)
    (servicios referencias : List (String × Coord)) (red : Red)
    (h : ∀ e ∈ red.aristas, 1 / 100 ≤ e.2.2) :
    ∀ e ∈ (integrar_servicios_en_red hav proy servicios referencias red).aristas,
      1 / 100 ≤ e.2.2 := by
  have hserv : ∀ (l : List (String × Coord)) (r : Red),
      (∀ e ∈ r.aristas, 1 / 100 ≤ e.2.2) →
      ∀ e ∈ (l.foldl (integraServicio hav proy) r).aristas, 1 / 100 ≤ e.2.2 := by
    intro l
    induction l with
    | nil => intro r hr; exact hr
    | cons sv l ih => intro r hr; exact ih _ (integraServicio_piso hav proy r sv hr)
  have href : ∀ (l : List (String × Coord)) (r : Red),
      (∀ e ∈ r.aristas, 1 / 100 ≤ e.2.2) →
      ∀ e ∈ (l.foldl (integraReferencia hav proy) r).aristas, 1 / 100 ≤ e.2.2 := by
    intro l
    induction l with
    | nil => intro r hr; exact hr
    | cons rf l ih => intro r hr; exact ih _ (integraReferencia_piso hav proy r rf hr)
  exact href referencias _ (hserv servicios red h)

/-- C5: every edge ever placed in the edge list has weight at least 0.01 km:
graph construction floors each way-segment weight, edge splitting floors each
split and connection weight, service connections reuse the floored connection
distance and reference connections take `min` with 0.5 which stays above the
floor; the floor is preserved by every operation and holds for the fully
loaded network. -/
theorem piso_peso_aristas (hav : Coord → Coord → ℚ)
    (proy : Coord → Coord → Coord → Coord × ℚ)
    (servicios referencias : List (String × Coord)) (data : List Elemento)
    (red : Red) (p : Coord) (pre : String) (sv rf : String × Coord) :
    (∀ e ∈ (procesar_red_osm hav data).aristas, 1 / 100 ≤ e.2.2) ∧
    ((∀ e ∈ red.aristas, 1 / 100 ≤ e.2.2) →
      (∀ e ∈ (split_edge_and_connect_point hav proy red p pre).1.aristas,
        1 / 100 ≤ e.2.2) ∧
      (∀ nid d,
        (split_edge_and_connect_point hav proy red p pre).2 = some (nid, d) →
        1 / 100 ≤ d)) ∧
    ((∀ e ∈ red.aristas, 1 / 100 ≤ e.2.2) →
      ∀ e ∈ (integraServicio hav proy red sv).aristas, 1 / 100 ≤ e.2.2) ∧
    ((∀ e ∈ red.aristas, 1 / 100 ≤ e.2.2) →
      ∀ e ∈ (integraReferencia hav proy red rf).aristas, 1 / 100 ≤ e.2.2) ∧
    (∀ e ∈ (cargar_red_vial hav proy servicios referencias data).aristas,
      1 / 100 ≤ e.2.2) :=
  ⟨procesar_piso hav data,
   fun h => split_piso hav proy red p pre h,
   fun h => integraServicio_piso hav proy red sv h,
   fun h => integraReferencia_piso hav proy red rf h,
   integrar_piso hav proy servicios referencias _ (procesar_piso hav data)⟩

theorem nodo_cercano_caracterizacion_testigo :
    ∃ cn, ("A", cn) ∈ redTestigo.nodos ∧ escaneado "A" = true ∧
      ∀ p ∈ redTestigo.nodos, escaneado p.1 = true → (0 : ℚ) ≤ 0 :=
  ((nodo_cercano_caracterizacion (fun _ _ => 0) (0, 0)).2 redTestigo).2 "A"
    (by with_unfolding_all decide)

theorem ruta_reconstruida_correcta_testigo :
    rutaTestigo.ruta_nodos.head? = some "A" ∧
    rutaTestigo.ruta_nodos.getLast? = some "B" ∧
    CadenaAristas redTestigo rutaTestigo.ruta_nodos ∧
    sumaPesosMin redTestigo rutaTestigo.ruta_nodos = rutaTestigo.distancia_km ∧
    ∃ (i j : Fin redTestigo.nodos.length),
      indiceDe redTestigo.nodos "A" = some i ∧
      indiceDe redTestigo.nodos "B" = some j ∧
      rutaTestigo.distancia_km = (preparar redTestigo).dist i j :=
  ruta_reconstruida_correcta redTestigo (by with_unfolding_all decide)
    (by decide) "A" "B" rutaTestigo (by with_unfolding_all decide)

theorem diagonal_tras_preparacion_testigo :
    (preparar redTestigo).dist idxA idxA = 0 ∧
    (preparar redTestigo).succ idxA idxA = some idxA :=
  ⟨(diagonal_tras_preparacion redTestigo (by with_unfolding_all decide) idxA).1,
   (diagonal_tras_preparacion redTestigo (by with_unfolding_all decide) idxA).2.1⟩

theorem arista_cota_distancia_testigo :
    (preparar redTestigo).dist idxA idxB ≤ ((1 : ℚ) : WithTop ℚ) :=
  arista_cota_distancia redTestigo "A" "B" 1 (by with_unfolding_all decide)
    idxA idxB (by decide) (by decide)

theorem piso_peso_aristas_testigo :
    (1 : ℚ) / 100 ≤ ((("node_0", "node_1", (1 : ℚ) / 100) :
      String × String × ℚ)).2.2 :=
  (piso_peso_aristas (fun _ _ => 0) (fun _ _ _ => ((0, 0), 0)) [] []
    dataTestigo redTestigo (0, 0) "snap" ("S", (0, 0)) ("R", (0, 0))).1
    ("node_0", "node_1", 1 / 100) (by with_unfolding_all decide)

theorem submuestreo_conserva_final_testigo :
    2 ≤ (puntosConservados 2 [((0 : ℚ), (0 : ℚ)), (0, 1), (0, 2)]).length ∧
    (((0 : ℚ), (2 : ℚ)) : Coord) ∈
      puntosConservados 2 [((0 : ℚ), (0 : ℚ)), (0, 1), (0, 2)] :=
  ⟨(submuestreo_conserva_final 2 [(0, 0), (0, 1), (0, 2)] (by decide)).1,
   (submuestreo_conserva_final 2 [(0, 0), (0, 1), (0, 2)] (by decide)).2.1
     ((0 : ℚ), (2 : ℚ)) (by with_unfolding_all decide)⟩

theorem referencia_tope_medio_testigo :
    ((integraReferencia (fun _ _ => 1) (fun _ _ _ => ((0, 0), 0)) redTestigoUni
        ("R", (0, 0))).aristas =
      (⟨[("A", (0, 0)), ("B", (0, 1)), ("ref_R", (0, 0)), ("snap_3", (0, 0))],
        [("A", "B", 1), ("A", "snap_3", 1), ("snap_3", "B", 1)]⟩ : Red).aristas ++
        [("ref_" ++ reemplazaEspacios ("R", ((0 : ℚ), (0 : ℚ))).1, "snap_3",
          min 1 (1 / 2)),
         ("snap_3", "ref_" ++ reemplazaEspacios ("R", ((0 : ℚ), (0 : ℚ))).1,
          min 1 (1 / 2))] ∧
      min (1 : ℚ) (1 / 2) ≤ 1 / 2) :=
  (referencia_tope_medio (fun _ _ => 1) (fun _ _ _ => ((0, 0), 0)) redTestigoUni
    ("R", (0, 0))
    ⟨[("A", (0, 0)), ("B", (0, 1)), ("ref_R", (0, 0)), ("snap_3", (0, 0))],
      [("A", "B", 1), ("A", "snap_3", 1), ("snap_3", "B", 1)]⟩
    "snap_3" 1 (by with_unfolding_all decide) (by decide)).1

theorem ruta_none_iff_testigo :
    obtener_ruta ⟨redTestigo, false⟩ "A" "B" = none :=
  (ruta_none_iff redTestigo (by with_unfolding_all decide) false "A" "B").mpr
    (Or.inl rfl)

theorem split_preserva_red_testigo :
    ∃ (ns : List (String × Coord)) (es : List (String × String × ℚ)),
      (split_edge_and_connect_point (fun _ _ => 1) (fun _ _ _ => ((0, 0), 0))
        redTestigo (0, 0) "snap").1.nodos = redTestigo.nodos ++ ns ∧
      ns.length ≤ 1 ∧
      (split_edge_and_connect_point (fun _ _ => 1) (fun _ _ _ => ((0, 0), 0))
        redTestigo (0, 0) "snap").1.aristas = redTestigo.aristas ++ es ∧
      es.length ≤ 4 ∧
      (∀ par ∈ redTestigo.nodos,
        par ∈ (split_edge_and_connect_point (fun _ _ => 1) (fun _ _ _ => ((0, 0), 0))
          redTestigo (0, 0) "snap").1.nodos) ∧
      (∀ e ∈ redTestigo.aristas,
        e ∈ (split_edge_and_connect_point (fun _ _ => 1) (fun _ _ _ => ((0, 0), 0))
          redTestigo (0, 0) "snap").1.aristas) :=
  split_preserva_red (fun _ _ => 1) (fun _ _ _ => ((0, 0), 0)) redTestigo (0, 0)
    "snap" (by decide)

theorem caminata_sucesores_termina_testigo :
    ∃ l, caminaSuc (preparar redTestigo).succ idxB
        (redTestigo.nodos.length + 1) idxA = some l ∧
      l.head? = some idxA ∧ l.getLast? = some idxB :=
  caminata_sucesores_termina redTestigo (by with_unfolding_all decide) "A" "B"
    idxA idxB (by decide) (by decide) (by with_unfolding_all decide)
